import Mathlib

/-!
Throttle: one token per key, at most `maxParallel` tokens

Shallow embedding of `internal/pkg/throttle/throttle.go`.

Modelling conventions

* `time.Time` and `time.Duration` are integers on one time line (nanoseconds);
  `t.Before(u)` is `t < u` and `t.Add(d)` is `t + d`.
* `uint64` values are naturals; the only arithmetic on them, `tt.tokenCnt += 1`,
  wraps modulo `2 ^ 64`.
* `int` is `Int`; `len(tt.tokenMap)` is the number of entries of the map.
* `map[string]tstate` is an association list without duplicate keys.  A `range`
  over a Go map visits the entries in an unspecified order: the order used by
  one call is selected, among all permutations of the entries, by a `seed`
  argument of that call.
* Every call runs under `tt.mut`, so a call is one atomic transition of the
  state; the state is passed explicitly and returned with the result.
* `time.Now()` is read once in `checkAtMaxPending` and once more in `Acquire`;
  both readings are arguments of the call.
* Logging has no effect on the state and is left out.
-/

namespace throttle

/-- Token indicates successful access (`Token`, without the back pointer to the
throttle, which is passed explicitly to `Token.Release`). -/
structure Token where
  id : Nat
  key : String
  deriving DecidableEq, Repr

/-- The record kept per key (`tstate`). -/
structure tstate where
  id : Nat
  expire : Int
  deriving DecidableEq, Repr

/-- An entry of `map[string]tstate`. -/
abbrev Entry := Sigma (fun _ : String => tstate)

/-- The type `map[string]tstate`. -/
abbrev TokenMap := AList (fun _ : String => tstate)

/-- The fields of `Throttle` guarded by the mutex. -/
structure Throttle where
  maxParallel : Int
  tokenCnt : Nat
  tokenMap : TokenMap
  deriving DecidableEq

/-- The modulus of `uint64` arithmetic. -/
def uint64Size : Nat := 2 ^ 64

/-- Go `len(m)`. -/
def len (m : TokenMap) : Nat := m.entries.length

/-- NewThrottle creates a new throttle with the passed maximum parallel value. -/
def NewThrottle (max : Int) : Throttle :=
  { maxParallel := max, tokenCnt := 0, tokenMap := ∅ }

/-- The order in which one `range` over the map visits its entries: the
permutation of the entries selected by `seed`. -/
def rangeOrder (seed : Nat) (m : TokenMap) : List Entry :=
  (m.entries.permutations').getD (seed % (m.entries.permutations').length) m.entries

/-- The loop `for skey, state := range tt.tokenMap` of `checkAtMaxPending`, over
the entries in the order of the range: the key of the first entry with
`state.expire.Before(now)`, at which the loop deletes and breaks. -/
def scanExpired (now : Int) : List Entry → Option String
  | [] => none
  | e :: rest => if e.2.expire < now then some e.1 else scanExpired now rest

/-- The condition `ok && state.expire.Before(now)` on the result of a map lookup. -/
def expiredAt (now : Int) : Option tstate → Bool
  | none => false
  | some state => decide (state.expire < now)

/-- The method `checkAtMaxPending`, with `now` the reading of `time.Now()`; returns the
new state and the boolean result. -/
def checkAtMaxPending (tt : Throttle) (key : String) (now : Int) (seed : Nat) :
    Throttle × Bool :=
  if tt.maxParallel = 0 ∨ (len tt.tokenMap : Int) < tt.maxParallel then
    (tt, false)
  else if expiredAt now (tt.tokenMap.lookup key) then
    ({ tt with tokenMap := tt.tokenMap.erase key }, false)
  else
    match scanExpired now (rangeOrder seed tt.tokenMap) with
    | some skey => ({ tt with tokenMap := tt.tokenMap.erase skey }, false)
    | none => (tt, true)

/-- The method `Acquire`: `now₀` is the clock reading taken inside
`checkAtMaxPending`, `now` the one taken in `Acquire` itself.  Returns the new
state and the token (`none` for `nil`). -/
def Acquire (tt : Throttle) (key : String) (ttl : Int) (now₀ now : Int) (seed : Nat) :
    Throttle × Option Token :=
  let r := checkAtMaxPending tt key now₀ seed
  if r.2 then
    (r.1, none)
  else
    let state := r.1.tokenMap.lookup key
    -- `!ok || state.expire.Before(now)`
    if state.isNone || expiredAt now state then
      let cnt := (r.1.tokenCnt + 1) % uint64Size
      ({ r.1 with tokenCnt := cnt, tokenMap := r.1.tokenMap.insert key ⟨cnt, now + ttl⟩ },
        some ⟨cnt, key⟩)
    else
      (r.1, none)

/-- The method `release`. -/
def release (tt : Throttle) (id : Nat) (key : String) : Throttle × Bool :=
  match tt.tokenMap.lookup key with
  | none => (tt, false)
  | some state =>
    if state.id = id then
      ({ tt with tokenMap := tt.tokenMap.erase key }, true)
    else
      (tt, false)

/-- Release will release the token so that another caller may acquire it through
the Throttle (`t.throttle` is the argument `tt`). -/
def Token.Release (t : Token) (tt : Throttle) : Throttle × Bool :=
  release tt t.id t.key

/-! ### Runs of calls -/

/-- One call on the throttle, with everything the call reads from outside the
state: the arguments, the clock readings and the order of the range. -/
inductive Op where
  | acquire (key : String) (ttl : Int) (now₀ now : Int) (seed : Nat)
  | release (id : Nat) (key : String)
  deriving DecidableEq

/-- The state after one call. -/
def step (tt : Throttle) : Op → Throttle
  | .acquire key ttl now₀ now seed => (Acquire tt key ttl now₀ now seed).1
  | .release id key => (release tt id key).1

/-- The token granted by one call, if the call is an `Acquire` that returns one. -/
def granted (tt : Throttle) : Op → Option Token
  | .acquire key ttl now₀ now seed => (Acquire tt key ttl now₀ now seed).2
  | .release _ _ => none

/-- The state after a sequence of calls. -/
def run (tt : Throttle) : List Op → Throttle
  | [] => tt
  | op :: ops => run (step tt op) ops

/-- The tokens granted during a sequence of calls, in the order of the calls. -/
def grants (tt : Throttle) : List Op → List Token
  | [] => []
  | op :: ops => (granted tt op).toList ++ grants (step tt op) ops

/-- The clock readings of a sequence of calls, in the order they are taken. -/
def clocks : List Op → List Int
  | [] => []
  | .acquire _ _ now₀ now _ :: ops => now₀ :: now :: clocks ops
  | .release _ _ :: ops => clocks ops

/-- The records of the table that have not expired at `now`: the live permits. -/
def live (now : Int) (m : TokenMap) : List Entry :=
  m.entries.filter (fun e => !decide (e.2.expire < now))

/-- Go `time.Hour`, in nanoseconds. -/
def hour : Int := 3600000000000

/-- A run of `n` calls `Acquire("x", 1)`, made two ticks apart from clock `t₀` on: every
call after the first finds the record left by the call before it expired. -/
def burst (t₀ : Int) (n : Nat) : List Op :=
  (List.range n).map (fun i => Op.acquire "x" 1 (t₀ + 2 * i) (t₀ + 2 * i) 0)

/-- The state that `burst t₀ n` leads to from the limiter of capacity 1 with counter `c`
and an empty table (see `run_burst`). -/
def burstState (c : Nat) (t₀ : Int) (n : Nat) : Throttle :=
  if n = 0 then ⟨1, c, ∅⟩
  else ⟨1, (c + n) % uint64Size,
    AList.singleton "x" ⟨(c + n) % uint64Size, t₀ + 2 * n - 1⟩⟩

/-- The key a call is made on. -/
def Op.key : Op → String
  | .acquire key _ _ _ _ => key
  | .release _ key => key

/-! ### The map and the eviction scan -/

theorem len_eq_keys (m : TokenMap) : len m = m.keys.length := by
  simp [len, AList.keys, List.keys]

theorem len_erase_le (m : TokenMap) (k : String) : len (m.erase k) ≤ len m := by
  rw [len_eq_keys, len_eq_keys, AList.keys_erase]
  exact List.length_erase_le _ _

theorem len_erase_of_mem (m : TokenMap) (k : String) (h : k ∈ m) :
    len (m.erase k) + 1 = len m := by
  rw [len_eq_keys, len_eq_keys, AList.keys_erase]
  have hk : k ∈ m.keys := AList.mem_keys.mp h
  have hpos : 0 < m.keys.length := List.length_pos_of_mem hk
  rw [List.length_erase_of_mem hk]
  omega

theorem len_insert_le (m : TokenMap) (k : String) (v : tstate) :
    len (m.insert k v) ≤ len m + 1 := by
  rw [len_eq_keys, len_eq_keys, AList.keys_insert]
  have := List.length_erase_le k m.keys
  simp only [List.length_cons]
  omega

theorem len_insert_of_mem (m : TokenMap) (k : String) (v : tstate) (h : k ∈ m) :
    len (m.insert k v) = len m := by
  rw [len_eq_keys, len_eq_keys, AList.keys_insert]
  have hk : k ∈ m.keys := AList.mem_keys.mp h
  have hpos : 0 < m.keys.length := List.length_pos_of_mem hk
  simp only [List.length_cons, List.length_erase_of_mem hk]
  omega

theorem mem_of_lookup {m : TokenMap} {k : String} {st : tstate}
    (h : m.lookup k = some st) : k ∈ m := by
  rw [← AList.lookup_isSome, h]; rfl

theorem rangeOrder_perm (seed : Nat) (m : TokenMap) :
    (rangeOrder seed m).Perm m.entries := by
  unfold rangeOrder
  by_cases h : seed % (m.entries.permutations').length < (m.entries.permutations').length
  · rw [List.getD_eq_getElem _ _ h]
    exact List.mem_permutations'.mp (List.getElem_mem h)
  · rw [List.getD_eq_default _ _ (Nat.le_of_not_lt h)]

/-- Every order of the entries is the order of the range for some seed. -/
theorem rangeOrder_complete (m : TokenMap) (l : List Entry) (h : l.Perm m.entries) :
    ∃ seed, rangeOrder seed m = l := by
  have hmem : l ∈ m.entries.permutations' := List.mem_permutations'.mpr h
  obtain ⟨i, hi, hget⟩ := List.getElem_of_mem hmem
  refine ⟨i, ?_⟩
  unfold rangeOrder
  rw [Nat.mod_eq_of_lt hi, List.getD_eq_getElem _ _ hi, hget]

theorem scanExpired_some {now : Int} {l : List Entry} {k : String}
    (h : scanExpired now l = some k) :
    ∃ st : tstate, (⟨k, st⟩ : Entry) ∈ l ∧ st.expire < now := by
  induction l with
  | nil => simp [scanExpired] at h
  | cons e rest ih =>
    unfold scanExpired at h
    split at h
    · rename_i he
      obtain ⟨k', st⟩ := e
      simp only [Option.some.injEq] at h
      subst h
      exact ⟨st, List.mem_cons_self _ _, he⟩
    · obtain ⟨st, hm, hs⟩ := ih h
      exact ⟨st, List.mem_cons_of_mem _ hm, hs⟩

theorem scanExpired_none {now : Int} {l : List Entry}
    (h : scanExpired now l = none) : ∀ e ∈ l, ¬ e.2.expire < now := by
  induction l with
  | nil => simp
  | cons e rest ih =>
    unfold scanExpired at h
    split at h
    · simp at h
    · rename_i he
      intro e' he'
      rcases List.mem_cons.mp he' with rfl | hr
      · exact he
      · exact ih h e' hr

theorem scanExpired_isSome {now : Int} {l : List Entry} {e : Entry}
    (he : e ∈ l) (hx : e.2.expire < now) : ∃ k, scanExpired now l = some k := by
  cases h : scanExpired now l with
  | none => exact absurd hx (scanExpired_none h e he)
  | some k => exact ⟨k, rfl⟩

/-- What `checkAtMaxPending` does, by the branch it takes. -/
theorem checkAtMaxPending_cases (tt : Throttle) (key : String) (now : Int) (seed : Nat) :
    ((tt.maxParallel = 0 ∨ (len tt.tokenMap : Int) < tt.maxParallel) ∧
        checkAtMaxPending tt key now seed = (tt, false)) ∨
    (¬ (tt.maxParallel = 0 ∨ (len tt.tokenMap : Int) < tt.maxParallel) ∧
        (∃ st, tt.tokenMap.lookup key = some st ∧ st.expire < now) ∧
        checkAtMaxPending tt key now seed
          = ({ tt with tokenMap := tt.tokenMap.erase key }, false)) ∨
    (¬ (tt.maxParallel = 0 ∨ (len tt.tokenMap : Int) < tt.maxParallel) ∧
        expiredAt now (tt.tokenMap.lookup key) = false ∧
        ∃ skey st, skey ≠ key ∧ tt.tokenMap.lookup skey = some st ∧ st.expire < now ∧
          checkAtMaxPending tt key now seed
            = ({ tt with tokenMap := tt.tokenMap.erase skey }, false)) ∨
    (¬ (tt.maxParallel = 0 ∨ (len tt.tokenMap : Int) < tt.maxParallel) ∧
        (∀ k st, tt.tokenMap.lookup k = some st → ¬ st.expire < now) ∧
        checkAtMaxPending tt key now seed = (tt, true)) := by
  by_cases hcap : tt.maxParallel = 0 ∨ (len tt.tokenMap : Int) < tt.maxParallel
  · left
    exact ⟨hcap, by simp [checkAtMaxPending, hcap]⟩
  · right
    cases hexp : expiredAt now (tt.tokenMap.lookup key) with
    | true =>
      left
      refine ⟨hcap, ?_, by simp [checkAtMaxPending, hcap, hexp]⟩
      cases hl : tt.tokenMap.lookup key with
      | none => simp [hl, expiredAt] at hexp
      | some st =>
        refine ⟨st, rfl, ?_⟩
        simpa [hl, expiredAt] using hexp
    | false =>
      right
      cases hscan : scanExpired now (rangeOrder seed tt.tokenMap) with
      | some skey =>
        left
        obtain ⟨st, hmem, hst⟩ := scanExpired_some hscan
        have hmem' : (⟨skey, st⟩ : Entry) ∈ tt.tokenMap.entries :=
          (rangeOrder_perm seed tt.tokenMap).mem_iff.mp hmem
        have hlk : tt.tokenMap.lookup skey = some st := AList.mem_lookup_iff.mpr hmem'
        refine ⟨hcap, rfl, skey, st, ?_, hlk, hst, by simp [checkAtMaxPending, hcap, hexp, hscan]⟩
        rintro rfl
        simp [hlk, expiredAt, hst] at hexp
      | none =>
        right
        refine ⟨hcap, ?_, by simp [checkAtMaxPending, hcap, hexp, hscan]⟩
        intro k st hk
        have hmem : (⟨k, st⟩ : Entry) ∈ tt.tokenMap.entries := AList.mem_lookup_iff.mp hk
        exact scanExpired_none hscan ⟨k, st⟩
          ((rangeOrder_perm seed tt.tokenMap).mem_iff.mpr hmem)

/-! ### Single calls -/

/-- `Acquire` when `checkAtMaxPending` reports that the table is at its maximum. -/
theorem Acquire_of_check_true {tt s : Throttle} {key : String} {now₀ : Int} {seed : Nat}
    (h : checkAtMaxPending tt key now₀ seed = (s, true)) (ttl now : Int) :
    Acquire tt key ttl now₀ now seed = (s, none) := by
  simp [Acquire, h]

/-- `Acquire` when `checkAtMaxPending` lets the call through. -/
theorem Acquire_of_check_false {tt s : Throttle} {key : String} {now₀ : Int} {seed : Nat}
    (h : checkAtMaxPending tt key now₀ seed = (s, false)) (ttl now : Int) :
    Acquire tt key ttl now₀ now seed =
      if (s.tokenMap.lookup key).isNone || expiredAt now (s.tokenMap.lookup key) then
        ({ s with tokenCnt := (s.tokenCnt + 1) % uint64Size,
                  tokenMap := s.tokenMap.insert key
                    ⟨(s.tokenCnt + 1) % uint64Size, now + ttl⟩ },
          some ⟨(s.tokenCnt + 1) % uint64Size, key⟩)
      else (s, none) := by
  simp [Acquire, h]

theorem checkAtMaxPending_maxParallel (tt : Throttle) (key : String) (now : Int) (seed : Nat) :
    (checkAtMaxPending tt key now seed).1.maxParallel = tt.maxParallel := by
  rcases checkAtMaxPending_cases tt key now seed with
    ⟨_, h⟩ | ⟨_, _, h⟩ | ⟨_, _, _, _, _, _, _, h⟩ | ⟨_, _, h⟩ <;> rw [h]

theorem checkAtMaxPending_tokenCnt (tt : Throttle) (key : String) (now : Int) (seed : Nat) :
    (checkAtMaxPending tt key now seed).1.tokenCnt = tt.tokenCnt := by
  rcases checkAtMaxPending_cases tt key now seed with
    ⟨_, h⟩ | ⟨_, _, h⟩ | ⟨_, _, _, _, _, _, _, h⟩ | ⟨_, _, h⟩ <;> rw [h]

theorem Acquire_maxParallel (tt : Throttle) (key : String) (ttl now₀ now : Int) (seed : Nat) :
    (Acquire tt key ttl now₀ now seed).1.maxParallel = tt.maxParallel := by
  have h := checkAtMaxPending_maxParallel tt key now₀ seed
  cases hb : (checkAtMaxPending tt key now₀ seed).2 with
  | true =>
    rw [Acquire_of_check_true (Prod.ext rfl hb) ttl now]
    exact h
  | false =>
    rw [Acquire_of_check_false (Prod.ext rfl hb) ttl now]
    split
    · exact h
    · exact h

theorem release_maxParallel (tt : Throttle) (id : Nat) (key : String) :
    (release tt id key).1.maxParallel = tt.maxParallel := by
  unfold release
  split
  · rfl
  · split <;> rfl

theorem release_tokenCnt (tt : Throttle) (id : Nat) (key : String) :
    (release tt id key).1.tokenCnt = tt.tokenCnt := by
  unfold release
  split
  · rfl
  · split <;> rfl

theorem release_len_le (tt : Throttle) (id : Nat) (key : String) :
    len (release tt id key).1.tokenMap ≤ len tt.tokenMap := by
  unfold release
  split
  · exact le_refl _
  · split
    · exact len_erase_le _ _
    · exact le_refl _

/-- `Acquire` keeps a table that is within a positive capacity within it. -/
theorem Acquire_len_le (tt : Throttle) (key : String) (ttl now₀ now : Int) (seed : Nat)
    (hpos : 0 < tt.maxParallel) (hle : (len tt.tokenMap : Int) ≤ tt.maxParallel) :
    (len (Acquire tt key ttl now₀ now seed).1.tokenMap : Int) ≤ tt.maxParallel := by
  have key_step : ∀ s : Throttle, (len s.tokenMap : Int) < tt.maxParallel →
      (len (if (s.tokenMap.lookup key).isNone || expiredAt now (s.tokenMap.lookup key) then
              ((⟨s.maxParallel, (s.tokenCnt + 1) % uint64Size,
                  s.tokenMap.insert key ⟨(s.tokenCnt + 1) % uint64Size, now + ttl⟩⟩ : Throttle),
                some (⟨(s.tokenCnt + 1) % uint64Size, key⟩ : Token))
            else (s, none)).1.tokenMap : Int) ≤ tt.maxParallel := by
    intro s hs
    split
    · have := len_insert_le s.tokenMap key ⟨(s.tokenCnt + 1) % uint64Size, now + ttl⟩
      simp only
      omega
    · simp only
      omega
  rcases checkAtMaxPending_cases tt key now₀ seed with
    ⟨hc, h⟩ | ⟨_, ⟨st, hl, _⟩, h⟩ | ⟨_, _, skey, st, _, hl, _, h⟩ | ⟨_, _, h⟩
  · rcases hc with h0 | hlt
    · omega
    · rw [Acquire_of_check_false h ttl now]
      exact key_step tt hlt
  · rw [Acquire_of_check_false h ttl now]
    have := len_erase_of_mem tt.tokenMap key (mem_of_lookup hl)
    exact key_step _ (by simp only; omega)
  · rw [Acquire_of_check_false h ttl now]
    have := len_erase_of_mem tt.tokenMap skey (mem_of_lookup hl)
    exact key_step _ (by simp only; omega)
  · rw [Acquire_of_check_true h ttl now]
    exact hle

/-! ### Runs -/

theorem run_append (tt : Throttle) (ops ops' : List Op) :
    run tt (ops ++ ops') = run (run tt ops) ops' := by
  induction ops generalizing tt with
  | nil => rfl
  | cons op ops ih => exact ih (step tt op)

theorem step_maxParallel (tt : Throttle) (op : Op) :
    (step tt op).maxParallel = tt.maxParallel := by
  cases op with
  | acquire key ttl now₀ now seed => exact Acquire_maxParallel tt key ttl now₀ now seed
  | release id key => exact release_maxParallel tt id key

theorem run_maxParallel (tt : Throttle) (ops : List Op) :
    (run tt ops).maxParallel = tt.maxParallel := by
  induction ops generalizing tt with
  | nil => rfl
  | cons op ops ih => exact (ih (step tt op)).trans (step_maxParallel tt op)

theorem step_len_le (tt : Throttle) (op : Op)
    (hpos : 0 < tt.maxParallel) (hle : (len tt.tokenMap : Int) ≤ tt.maxParallel) :
    (len (step tt op).tokenMap : Int) ≤ tt.maxParallel := by
  cases op with
  | acquire key ttl now₀ now seed => exact Acquire_len_le tt key ttl now₀ now seed hpos hle
  | release id key =>
    have := release_len_le tt id key
    simp only [step]
    omega

theorem run_len_le (tt : Throttle) (ops : List Op)
    (hpos : 0 < tt.maxParallel) (hle : (len tt.tokenMap : Int) ≤ tt.maxParallel) :
    (len (run tt ops).tokenMap : Int) ≤ tt.maxParallel := by
  induction ops generalizing tt with
  | nil => exact hle
  | cons op ops ih =>
    have h := ih (step tt op) (by rw [step_maxParallel]; exact hpos)
      (by rw [step_maxParallel]; exact step_len_le tt op hpos hle)
    rwa [step_maxParallel] at h

theorem live_length_le (now : Int) (m : TokenMap) : (live now m).length ≤ len m :=
  List.length_filter_le _ _

/-! ### Capacity -/

/-- C1: for every capacity `C > 0` and every sequence of `Acquire` and `release`
calls (any keys, ttls, ids, clock readings and range orders) applied to
`NewThrottle C`, after every call (after every prefix `ops.take n` of the sequence)
the table has at most `C` entries, and so at most `C` records are live at any
clock value. -/
theorem capacity_invariant (C : Int) (hC : 0 < C) (ops : List Op) (n : Nat) :
    (len (run (NewThrottle C) (ops.take n)).tokenMap : Int) ≤ C ∧
    ∀ now : Int, ((live now (run (NewThrottle C) (ops.take n)).tokenMap).length : Int) ≤ C := by
  have h : (len (run (NewThrottle C) (ops.take n)).tokenMap : Int) ≤ C :=
    run_len_le (NewThrottle C) (ops.take n) hC (by simpa [NewThrottle, len] using hC.le)
  refine ⟨h, fun now => ?_⟩
  have := live_length_le now (run (NewThrottle C) (ops.take n)).tokenMap
  omega

/-- C1 at capacity 2, after all four calls of a run that tries three keys. -/
theorem capacity_invariant_witness :
    (0 : Int) < 2 ∧
    ((len (run (NewThrottle 2)
        ([Op.acquire "a" 5 0 0 0, Op.acquire "b" 5 1 1 0, Op.acquire "c" 5 9 9 1,
          Op.release 1 "a"].take 4)).tokenMap : Int) ≤ 2 ∧
     ∀ now : Int, ((live now (run (NewThrottle 2)
        ([Op.acquire "a" 5 0 0 0, Op.acquire "b" 5 1 1 0, Op.acquire "c" 5 9 9 1,
          Op.release 1 "a"].take 4)).tokenMap).length : Int) ≤ 2) :=
  ⟨by decide, capacity_invariant 2 (by decide)
    [Op.acquire "a" 5 0 0 0, Op.acquire "b" 5 1 1 0, Op.acquire "c" 5 9 9 1,
      Op.release 1 "a"] 4⟩

/-! ### One permit per key -/

/-- What a successful `Acquire` leaves behind. -/
theorem Acquire_granted {tt : Throttle} {key : String} {ttl now₀ now : Int} {seed : Nat}
    {tok : Token} (h : (Acquire tt key ttl now₀ now seed).2 = some tok) :
    tok.key = key ∧ tok.id = (tt.tokenCnt + 1) % uint64Size ∧
    (Acquire tt key ttl now₀ now seed).1.tokenCnt = tok.id ∧
    (Acquire tt key ttl now₀ now seed).1.tokenMap.lookup key = some ⟨tok.id, now + ttl⟩ := by
  have hc := checkAtMaxPending_tokenCnt tt key now₀ seed
  cases hb : (checkAtMaxPending tt key now₀ seed).2 with
  | true =>
    rw [Acquire_of_check_true (Prod.ext rfl hb) ttl now] at h
    simp at h
  | false =>
    rw [Acquire_of_check_false (Prod.ext rfl hb) ttl now] at h ⊢
    split at h
    · rename_i hcond
      rw [if_pos hcond]
      simp only [Option.some.injEq] at h
      subst h
      simp [hc, AList.lookup_insert]
    · simp at h

/-- A record that has not expired at either clock reading of an `Acquire` survives the
call, and the call is denied when made for the key of that record. -/
theorem Acquire_live_record {tt : Throttle} {k : String} {st : tstate}
    (hl : tt.tokenMap.lookup k = some st) (key : String) (ttl now₀ now : Int) (seed : Nat)
    (h₀ : now₀ ≤ st.expire) (h : now ≤ st.expire) :
    (Acquire tt key ttl now₀ now seed).1.tokenMap.lookup k = some st ∧
    (key = k → (Acquire tt key ttl now₀ now seed).2 = none) := by
  have tail : ∀ s : Throttle, s.tokenMap.lookup k = some st →
      (if (s.tokenMap.lookup key).isNone || expiredAt now (s.tokenMap.lookup key) then
          ((⟨s.maxParallel, (s.tokenCnt + 1) % uint64Size,
              s.tokenMap.insert key ⟨(s.tokenCnt + 1) % uint64Size, now + ttl⟩⟩ : Throttle),
            some (⟨(s.tokenCnt + 1) % uint64Size, key⟩ : Token))
        else (s, none)).1.tokenMap.lookup k = some st ∧
      (key = k →
        (if (s.tokenMap.lookup key).isNone || expiredAt now (s.tokenMap.lookup key) then
          ((⟨s.maxParallel, (s.tokenCnt + 1) % uint64Size,
              s.tokenMap.insert key ⟨(s.tokenCnt + 1) % uint64Size, now + ttl⟩⟩ : Throttle),
            some (⟨(s.tokenCnt + 1) % uint64Size, key⟩ : Token))
        else (s, none)).2 = none) := by
    intro s hs
    by_cases hk : key = k
    · subst hk
      have hnot : ¬ st.expire < now := not_lt.mpr h
      simp [hs, expiredAt, hnot]
    · have hk' : k ≠ key := fun e => hk e.symm
      split
      · simp [AList.lookup_insert_ne hk', hs, hk]
      · simp [hs, hk]
  rcases checkAtMaxPending_cases tt key now₀ seed with
    ⟨_, hc⟩ | ⟨_, ⟨st', hl', hx⟩, hc⟩ | ⟨_, _, skey, st', _, hl', hx, hc⟩ | ⟨_, _, hc⟩
  · rw [Acquire_of_check_false hc ttl now]
    exact tail tt hl
  · have hk : k ≠ key := by
      rintro rfl
      rw [hl] at hl'
      simp only [Option.some.injEq] at hl'
      subst hl'
      omega
    rw [Acquire_of_check_false hc ttl now]
    exact tail _ (by simpa [AList.lookup_erase_ne hk] using hl)
  · have hk : k ≠ skey := by
      rintro rfl
      rw [hl] at hl'
      simp only [Option.some.injEq] at hl'
      subst hl'
      omega
    rw [Acquire_of_check_false hc ttl now]
    exact tail _ (by simpa [AList.lookup_erase_ne hk] using hl)
  · rw [Acquire_of_check_true hc ttl now]
    exact ⟨hl, fun _ => rfl⟩

/-- A `release` with another id or another key leaves a record in place. -/
theorem release_other_record {tt : Throttle} {k : String} {st : tstate}
    (hl : tt.tokenMap.lookup k = some st) (id : Nat) (key : String)
    (hne : ¬ (id = st.id ∧ key = k)) :
    (release tt id key).1.tokenMap.lookup k = some st := by
  unfold release
  split
  · exact hl
  · rename_i state hstate
    split
    · rename_i hid
      have hk : k ≠ key := by
        rintro rfl
        rw [hl] at hstate
        simp only [Option.some.injEq] at hstate
        subst hstate
        exact hne ⟨hid.symm, rfl⟩
      simpa [AList.lookup_erase_ne hk] using hl
    · exact hl

/-- A record survives every run whose clock readings do not pass its expiry and in which
it is not released. -/
theorem run_live_record {k : String} {st : tstate} (ops : List Op) :
    ∀ tt : Throttle, tt.tokenMap.lookup k = some st →
      (∀ x ∈ clocks ops, x ≤ st.expire) → Op.release st.id k ∉ ops →
      (run tt ops).tokenMap.lookup k = some st := by
  induction ops with
  | nil => intro tt hl _ _; exact hl
  | cons op ops ih =>
    intro tt hl hclk hrel
    have hrel' : Op.release st.id k ∉ ops := fun hm => hrel (List.mem_cons_of_mem _ hm)
    cases op with
    | acquire key ttl now₀ now seed =>
      have h₀ : now₀ ≤ st.expire := hclk now₀ (by simp [clocks])
      have h₁ : now ≤ st.expire := hclk now (by simp [clocks])
      refine ih _ (Acquire_live_record hl key ttl now₀ now seed h₀ h₁).1 ?_ hrel'
      intro x hx
      exact hclk x (by simp [clocks, hx])
    | release id key =>
      refine ih _ (release_other_record hl id key ?_) ?_ hrel'
      · rintro ⟨rfl, rfl⟩
        exact hrel (List.mem_cons_self _ _)
      · intro x hx
        exact hclk x (by simpa [clocks] using hx)

/-- C2: if `Acquire(k, ttl)` grants a token `tok` at clock value `t` (in any state,
reachable or not), then after every continuation `ops` in which `release(tok.id, k)`
is not called, an `Acquire(k, ttl')` whose clock readings `c₀ ≤ c` are at most
`t + ttl` returns nil, the clock readings from `t` on being non-decreasing; the
continuation may hold any calls on other keys and on `k` itself. -/
theorem single_permit_per_key (tt : Throttle) (k : String) (ttl t₀ t : Int) (seed : Nat)
    (tok : Token) (hgrant : (Acquire tt k ttl t₀ t seed).2 = some tok)
    (ops : List Op) (hrel : Op.release tok.id k ∉ ops)
    (ttl' c₀ c : Int) (seed' : Nat)
    (hclock : List.Chain (fun a b : Int => a ≤ b) t (clocks ops ++ [c₀, c]))
    (hle : c ≤ t + ttl) :
    (Acquire (run (Acquire tt k ttl t₀ t seed).1 ops) k ttl' c₀ c seed').2 = none := by
  have hrec := (Acquire_granted hgrant).2.2.2
  have hpw : List.Pairwise (fun a b : Int => a ≤ b) (clocks ops ++ [c₀, c]) :=
    (List.pairwise_cons.mp (List.chain_iff_pairwise.mp hclock)).2
  rw [List.pairwise_append] at hpw
  obtain ⟨_, hlast, hcross⟩ := hpw
  have hc₀ : c₀ ≤ c := by
    simpa using hlast
  have hclk : ∀ x ∈ clocks ops, x ≤ t + ttl := fun x hx =>
    le_trans (hcross x hx c (by simp)) hle
  have hfin := @run_live_record k ⟨tok.id, t + ttl⟩ ops _ hrec hclk hrel
  exact (Acquire_live_record hfin k ttl' c₀ c seed' (by simp only; omega) hle).2 rfl

/-- C2 on `NewThrottle 2`: key `a` is granted at clock 0 for 10 ticks; a grant on `b`, a
release with a foreign id and a denied retry follow; the `Acquire` of `a` at clock 6 is
denied. -/
theorem single_permit_per_key_witness :
    (Acquire (NewThrottle 2) "a" 10 0 0 0).2 = some ⟨1, "a"⟩ ∧
    (Acquire (run (Acquire (NewThrottle 2) "a" 10 0 0 0).1
      [Op.acquire "b" 5 1 2 0, Op.release 7 "a", Op.acquire "a" 3 3 4 0]) "a" 1 5 6 0).2
      = none :=
  ⟨by decide,
   single_permit_per_key (NewThrottle 2) "a" 10 0 0 0 ⟨1, "a"⟩ (by decide)
    [Op.acquire "b" 5 1 2 0, Op.release 7 "a", Op.acquire "a" 3 3 4 0] (by decide)
    1 5 6 0 (by simp [clocks]) (by decide)⟩

/-! ### The decision of `Acquire` -/

theorem expiredAt_eq_true_iff (now : Int) (o : Option tstate) :
    expiredAt now o = true ↔ ∃ st, o = some st ∧ st.expire < now := by
  cases o with
  | none => simp [expiredAt]
  | some st => simp [expiredAt]

/-- The condition `!ok || state.expire.Before(now)` in words. -/
theorem grantCond_iff (now : Int) (o : Option tstate) :
    (o.isNone || expiredAt now o) = true ↔
      (o = none ∨ ∃ st, o = some st ∧ st.expire < now) := by
  cases o with
  | none => simp [expiredAt]
  | some st => simp [expiredAt]

/-- Whether `Acquire` returns a token: the capacity clause is read at `now₀`, the clock
reading of `checkAtMaxPending`, the key clause at `now`, the reading of `Acquire`; a
record of `key` that has expired at `now₀` is taken to have expired at `now` too. -/
theorem Acquire_isSome_iff (tt : Throttle) (key : String) (ttl now₀ now : Int) (seed : Nat)
    (hmono : ∀ st, tt.tokenMap.lookup key = some st → st.expire < now₀ → st.expire < now) :
    (Acquire tt key ttl now₀ now seed).2.isSome = true ↔
      (tt.tokenMap.lookup key = none ∨
        ∃ st, tt.tokenMap.lookup key = some st ∧ st.expire < now) ∧
      (tt.maxParallel = 0 ∨ (len tt.tokenMap : Int) < tt.maxParallel ∨
        ∃ k st, tt.tokenMap.lookup k = some st ∧ st.expire < now₀) := by
  have tail : ∀ s : Throttle,
      ((if (s.tokenMap.lookup key).isNone || expiredAt now (s.tokenMap.lookup key) then
          ((⟨s.maxParallel, (s.tokenCnt + 1) % uint64Size,
              s.tokenMap.insert key ⟨(s.tokenCnt + 1) % uint64Size, now + ttl⟩⟩ : Throttle),
            some (⟨(s.tokenCnt + 1) % uint64Size, key⟩ : Token))
        else (s, none)).2.isSome = true ↔
        (s.tokenMap.lookup key = none ∨
          ∃ st, s.tokenMap.lookup key = some st ∧ st.expire < now)) := by
    intro s
    rw [← grantCond_iff]
    split
    · rename_i h; simp [h]
    · rename_i h; simp [h]
  rcases checkAtMaxPending_cases tt key now₀ seed with
    ⟨hcap, hc⟩ | ⟨hcap, ⟨st', hl', hx⟩, hc⟩ | ⟨hcap, hne, skey, st', hsk, hl', hx, hc⟩ |
    ⟨hcap, hnone, hc⟩
  · rw [Acquire_of_check_false hc ttl now, tail tt]
    constructor
    · intro h
      refine ⟨h, ?_⟩
      rcases hcap with h0 | hlt
      · exact Or.inl h0
      · exact Or.inr (Or.inl hlt)
    · exact fun h => h.1
  · rw [Acquire_of_check_false hc ttl now, tail]
    constructor
    · intro _
      exact ⟨Or.inr ⟨st', hl', hmono st' hl' hx⟩, Or.inr (Or.inr ⟨key, st', hl', hx⟩)⟩
    · intro _
      left
      exact AList.lookup_erase key tt.tokenMap
  · rw [Acquire_of_check_false hc ttl now, tail]
    have hk : key ≠ skey := fun e => hsk e.symm
    simp only [AList.lookup_erase_ne hk]
    constructor
    · intro h
      exact ⟨h, Or.inr (Or.inr ⟨skey, st', hl', hx⟩)⟩
    · exact fun h => h.1
  · rw [Acquire_of_check_true hc ttl now]
    constructor
    · intro h; simp at h
    · rintro ⟨_, h⟩
      exfalso
      rcases h with h0 | hlt | ⟨k, st, hk, hst⟩
      · exact hcap (Or.inl h0)
      · exact hcap (Or.inr hlt)
      · exact hnone k st hk hst

/-- C3, for both clock readings of the call and with the id taken modulo `2 ^ 64`: for
every state and every call `Acquire(key, ttl)` whose clock readings are `now₀` in
`checkAtMaxPending` and `now ≥ now₀` in `Acquire` (both are the clock value of the call
when they agree), a token is returned if and only if (`key` has no record or its record
has `expire < now`) and (`maxParallel = 0` or `len(tokenMap) < maxParallel` or some record
of the table has `expire < now₀`); the returned token has key `key` and id
`(old tokenCnt + 1) mod 2 ^ 64`, `tokenCnt` becomes that id, and `tokenMap[key]` becomes
the record with that id and `expire = now + ttl`. -/
theorem acquire_decision_and_grant (tt : Throttle) (key : String) (ttl now₀ now : Int)
    (seed : Nat) (hclk : now₀ ≤ now) :
    ((Acquire tt key ttl now₀ now seed).2.isSome = true ↔
      (tt.tokenMap.lookup key = none ∨
        ∃ st, tt.tokenMap.lookup key = some st ∧ st.expire < now) ∧
      (tt.maxParallel = 0 ∨ (len tt.tokenMap : Int) < tt.maxParallel ∨
        ∃ k st, tt.tokenMap.lookup k = some st ∧ st.expire < now₀)) ∧
    ∀ tok : Token, (Acquire tt key ttl now₀ now seed).2 = some tok →
      tok.id = (tt.tokenCnt + 1) % 2 ^ 64 ∧ tok.key = key ∧
      (Acquire tt key ttl now₀ now seed).1.tokenCnt = tok.id ∧
      (Acquire tt key ttl now₀ now seed).1.tokenMap.lookup key
        = some ⟨tok.id, now + ttl⟩ := by
  refine ⟨Acquire_isSome_iff tt key ttl now₀ now seed (fun st _ hx => lt_of_lt_of_le hx hclk),
    fun tok h => ?_⟩
  obtain ⟨h1, h2, h3, h4⟩ := Acquire_granted h
  exact ⟨h2, h1, h3, h4⟩

/-- C3 on a full table of capacity 2 where the record of `a` expires at 25 and that of
`b` at 6: the call `Acquire("a")` that reads the clock at 20 in the capacity check and at
30 afterwards is granted, the capacity clause holding through `b` at 20 and the key
clause through `a` at 30; the same call with both readings at 20 is denied. -/
theorem acquire_decision_and_grant_witness :
    (20 : Int) ≤ 30 ∧
    (Acquire (run (NewThrottle 2) [Op.acquire "a" 25 0 0 0, Op.acquire "b" 5 1 1 0])
      "a" 5 20 30 0).2.isSome = true ∧
    (Acquire (run (NewThrottle 2) [Op.acquire "a" 25 0 0 0, Op.acquire "b" 5 1 1 0])
      "a" 5 20 20 0).2 = none :=
  ⟨by decide,
   (acquire_decision_and_grant
      (run (NewThrottle 2) [Op.acquire "a" 25 0 0 0, Op.acquire "b" 5 1 1 0])
      "a" 5 20 30 0 (by decide)).1.mpr
     ⟨Or.inr ⟨⟨1, 25⟩, by decide, by decide⟩,
      Or.inr (Or.inr ⟨"b", ⟨2, 6⟩, by decide, by decide⟩)⟩,
   by decide⟩

/-- C3 as stated fails when the counter is at its largest value: with
`tokenCnt = 2 ^ 64 - 1` and an empty table the call is granted, the token id and the new
`tokenCnt` are `0`, not the old `tokenCnt + 1`. -/
theorem acquire_id_wraps_to_zero :
    (Acquire ⟨0, 2 ^ 64 - 1, ∅⟩ "a" 1 0 0 0).2 = some ⟨0, "a"⟩ ∧
    (Acquire ⟨0, 2 ^ 64 - 1, ∅⟩ "a" 1 0 0 0).1.tokenCnt = 0 ∧
    (0 : Nat) ≠ (2 ^ 64 - 1) + 1 := by
  decide

/-! ### Release -/

/-- C4: for every state, `release(id, key)` returns true if and only if the table holds
`key` with stored id `id`; when it returns true the new table is the old one with `key`
deleted (no record for `key`, every other key as before), when it returns false the
table is unchanged; `tokenCnt` and `maxParallel` are unchanged in both cases;
`Token.Release` is `release` on the token's id and key; and a matching record is
released also when its expiry lies before the current clock value `now`. -/
theorem release_characterisation (tt : Throttle) (id : Nat) (key : String) :
    ((release tt id key).2 = true ↔
      ∃ st, tt.tokenMap.lookup key = some st ∧ st.id = id) ∧
    ((release tt id key).2 = true →
      (release tt id key).1.tokenMap = tt.tokenMap.erase key ∧
      (release tt id key).1.tokenMap.lookup key = none ∧
      ∀ k, k ≠ key → (release tt id key).1.tokenMap.lookup k = tt.tokenMap.lookup k) ∧
    ((release tt id key).2 = false → (release tt id key).1.tokenMap = tt.tokenMap) ∧
    (release tt id key).1.tokenCnt = tt.tokenCnt ∧
    (release tt id key).1.maxParallel = tt.maxParallel ∧
    (∀ t : Token, t.Release tt = release tt t.id t.key) ∧
    (∀ e now : Int, e < now → tt.tokenMap.lookup key = some ⟨id, e⟩ →
      (release tt id key).2 = true) := by
  refine ⟨?_, ?_, ?_, release_tokenCnt tt id key, release_maxParallel tt id key,
    fun _ => rfl, ?_⟩
  · unfold release
    cases h : tt.tokenMap.lookup key with
    | none => simp
    | some st =>
      by_cases hid : st.id = id
      · simp [hid]
      · simp [hid]
  · unfold release
    cases h : tt.tokenMap.lookup key with
    | none => simp
    | some st =>
      by_cases hid : st.id = id
      · simp only [hid, if_true, true_implies]
        refine ⟨trivial, AList.lookup_erase key tt.tokenMap, fun k hk => ?_⟩
        exact AList.lookup_erase_ne hk
      · simp [hid]
  · unfold release
    cases h : tt.tokenMap.lookup key with
    | none => simp
    | some st =>
      by_cases hid : st.id = id
      · simp [hid]
      · simp [hid]
  · intro e now _ h
    simp [release, h]

/-! ### Unbounded mode -/

/-- C9: for a limiter with `maxParallel = 0`, in every state (every table size),
`Acquire(key, ttl)` at clock value `now` is denied if and only if `key` has a record with
`expire ≥ now`, and the call leaves the record of every other key as it was; the clock
reading `now₀` of the capacity check plays no part. -/
theorem unbounded_mode (tt : Throttle) (h0 : tt.maxParallel = 0) (key : String)
    (ttl now₀ now : Int) (seed : Nat) :
    ((Acquire tt key ttl now₀ now seed).2 = none ↔
      ∃ st, tt.tokenMap.lookup key = some st ∧ now ≤ st.expire) ∧
    ∀ k, k ≠ key →
      (Acquire tt key ttl now₀ now seed).1.tokenMap.lookup k = tt.tokenMap.lookup k := by
  have hc : checkAtMaxPending tt key now₀ seed = (tt, false) := by
    simp [checkAtMaxPending, h0]
  rw [Acquire_of_check_false hc ttl now]
  constructor
  · cases hl : tt.tokenMap.lookup key with
    | none => simp [expiredAt]
    | some st =>
      by_cases hx : st.expire < now
      · simp [expiredAt, hx]
      · simp [expiredAt, hx, not_lt.mp hx]
  · intro k hk
    split
    · exact AList.lookup_insert_ne hk
    · rfl

/-- C9 on an unbounded limiter that holds a live record for `a`: a second `Acquire` of
`a` is denied and `b`, granted in between, keeps its record. -/
theorem unbounded_mode_witness :
    (run (NewThrottle 0) [Op.acquire "a" 10 0 0 0, Op.acquire "b" 10 1 1 0]).maxParallel = 0 ∧
    (((Acquire (run (NewThrottle 0) [Op.acquire "a" 10 0 0 0, Op.acquire "b" 10 1 1 0])
        "a" 10 2 2 0).2 = none ↔
      ∃ st, (run (NewThrottle 0)
          [Op.acquire "a" 10 0 0 0, Op.acquire "b" 10 1 1 0]).tokenMap.lookup "a" = some st ∧
        2 ≤ st.expire) ∧
    ∀ k, k ≠ "a" →
      (Acquire (run (NewThrottle 0) [Op.acquire "a" 10 0 0 0, Op.acquire "b" 10 1 1 0])
        "a" 10 2 2 0).1.tokenMap.lookup k
      = (run (NewThrottle 0)
          [Op.acquire "a" 10 0 0 0, Op.acquire "b" 10 1 1 0]).tokenMap.lookup k) :=
  ⟨by decide,
   unbounded_mode (run (NewThrottle 0) [Op.acquire "a" 10 0 0 0, Op.acquire "b" 10 1 1 0])
    (by decide) "a" 10 2 2 0⟩

/-! ### The capacity scenario -/

theorem len_insert_of_not_mem (m : TokenMap) (k : String) (v : tstate) (h : k ∉ m) :
    len (m.insert k v) = len m + 1 := by
  rw [len, AList.insert_entries_of_neg h]
  rfl

/-- C10: on `NewThrottle(2)`, with all clock readings of the calls less than one hour
apart, `Acquire("a", 1h)` returns a token with id 1, `Acquire("b", 1h)` a token with id
2, `Acquire("c", 1h)` nil, `Release()` on the id-1 token true, and the following
`Acquire("c", 1h)` a token with id 3, for every order of the eviction scan. -/
theorem capacity_scenario (a₀ a b₀ b c₀ c d₀ d : Int) (s₁ s₂ s₃ s₄ : Nat)
    (hclk : ∀ x ∈ [a₀, a, b₀, b, c₀, c, d₀, d], ∀ y ∈ [a₀, a, b₀, b, c₀, c, d₀, d],
      x - y < hour) :
    ∃ tt₁ tt₂ tt₃ tt₄ tt₅ : Throttle,
      Acquire (NewThrottle 2) "a" hour a₀ a s₁ = (tt₁, some ⟨1, "a"⟩) ∧
      Acquire tt₁ "b" hour b₀ b s₂ = (tt₂, some ⟨2, "b"⟩) ∧
      Acquire tt₂ "c" hour c₀ c s₃ = (tt₃, none) ∧
      Token.Release ⟨1, "a"⟩ tt₃ = (tt₄, true) ∧
      Acquire tt₄ "c" hour d₀ d s₄ = (tt₅, some ⟨3, "c"⟩) := by
  have hca : c₀ - a < hour := hclk c₀ (by simp) a (by simp)
  have hcb : c₀ - b < hour := hclk c₀ (by simp) b (by simp)
  have hab : ("a" : String) ≠ "b" := by decide
  have hac : ("a" : String) ≠ "c" := by decide
  have hbc : ("b" : String) ≠ "c" := by decide
  -- the tables along the run
  let m₁ : TokenMap := (∅ : TokenMap).insert "a" ⟨1, a + hour⟩
  let m₂ : TokenMap := m₁.insert "b" ⟨2, b + hour⟩
  let m₄ : TokenMap := m₂.erase "a"
  have hlen₁ : len m₁ = 1 := len_insert_of_not_mem _ _ _ (AList.not_mem_empty _)
  have hb₁ : "b" ∉ m₁ := by
    simp only [m₁, AList.mem_insert, AList.not_mem_empty, or_false]
    exact fun e => hab e.symm
  have hlen₂ : len m₂ = 2 := by
    rw [len_insert_of_not_mem _ _ _ hb₁, hlen₁]
  have ha₂ : "a" ∈ m₂ :=
    (AList.mem_insert _).mpr (Or.inr ((AList.mem_insert _).mpr (Or.inl rfl)))
  have hlen₄ : len m₄ = 1 := by
    have := len_erase_of_mem m₂ "a" ha₂
    show len (m₂.erase "a") = 1
    omega
  have hla₂ : m₂.lookup "a" = some ⟨1, a + hour⟩ := by
    simp only [m₂, m₁]
    rw [AList.lookup_insert_ne hab, AList.lookup_insert]
  have hlook₂ : ∀ k st, m₂.lookup k = some st → ¬ st.expire < c₀ := by
    intro k st hk
    by_cases hkb : k = "b"
    · subst hkb
      simp only [m₂, AList.lookup_insert, Option.some.injEq] at hk
      subst hk
      simp only
      omega
    · by_cases hka : k = "a"
      · subst hka
        rw [hla₂] at hk
        simp only [Option.some.injEq] at hk
        subst hk
        simp only
        omega
      · simp only [m₂, m₁, AList.lookup_insert_ne hkb, AList.lookup_insert_ne hka,
          AList.lookup_empty] at hk
        exact absurd hk (by simp)
  have hc₂ : m₂.lookup "c" = none := by
    simp only [m₂, m₁]
    rw [AList.lookup_insert_ne (Ne.symm hbc), AList.lookup_insert_ne (Ne.symm hac),
      AList.lookup_empty]
  have hc₄ : m₄.lookup "c" = none := by
    simp only [m₄]
    rw [AList.lookup_erase_ne (Ne.symm hac), hc₂]
  refine ⟨⟨2, 1, m₁⟩, ⟨2, 2, m₂⟩, ⟨2, 2, m₂⟩, ⟨2, 2, m₄⟩,
    ⟨2, 3, m₄.insert "c" ⟨3, d + hour⟩⟩, ?_, ?_, ?_, ?_, ?_⟩
  · have hc : checkAtMaxPending (NewThrottle 2) "a" a₀ s₁ = (NewThrottle 2, false) := by
      simp [checkAtMaxPending, NewThrottle, len]
    rw [Acquire_of_check_false hc]
    simp [NewThrottle, uint64Size, m₁]
  · have hc : checkAtMaxPending ⟨2, 1, m₁⟩ "b" b₀ s₂ = (⟨2, 1, m₁⟩, false) := by
      simp [checkAtMaxPending, hlen₁]
    rw [Acquire_of_check_false hc]
    have hlb : m₁.lookup "b" = none := AList.lookup_eq_none.mpr hb₁
    simp [hlb, uint64Size, m₂]
  · rcases checkAtMaxPending_cases ⟨2, 2, m₂⟩ "c" c₀ s₃ with
      ⟨hcap, _⟩ | ⟨_, ⟨st, hl, _⟩, _⟩ | ⟨_, _, skey, st, _, hl, hx, _⟩ | ⟨_, _, hc⟩
    · simp [hlen₂] at hcap
    · simp only [hc₂] at hl
      exact absurd hl (by simp)
    · exact absurd hx (hlook₂ skey st hl)
    · exact Acquire_of_check_true hc hour c
  · simp [Token.Release, release, hla₂, m₄]
  · have hc : checkAtMaxPending ⟨2, 2, m₄⟩ "c" d₀ s₄ = (⟨2, 2, m₄⟩, false) := by
      simp [checkAtMaxPending, hlen₄]
    rw [Acquire_of_check_false hc]
    simp [hc₄, uint64Size]

/-- C10 with the eight clock readings at 0, 1, …, 7 nanoseconds. -/
theorem capacity_scenario_witness :
    ∃ tt₁ tt₂ tt₃ tt₄ tt₅ : Throttle,
      Acquire (NewThrottle 2) "a" hour 0 1 0 = (tt₁, some ⟨1, "a"⟩) ∧
      Acquire tt₁ "b" hour 2 3 0 = (tt₂, some ⟨2, "b"⟩) ∧
      Acquire tt₂ "c" hour 4 5 0 = (tt₃, none) ∧
      Token.Release ⟨1, "a"⟩ tt₃ = (tt₄, true) ∧
      Acquire tt₄ "c" hour 6 7 0 = (tt₅, some ⟨3, "c"⟩) :=
  capacity_scenario 0 1 2 3 4 5 6 7 0 0 0 0 (by decide)

/-! ### The id counter -/

theorem uint64Size_eq : uint64Size = 18446744073709551616 := by
  norm_num [uint64Size]

/-- A denied `Acquire` leaves `tokenCnt` as it was. -/
theorem Acquire_denied_tokenCnt {tt : Throttle} {key : String} {ttl now₀ now : Int}
    {seed : Nat} (h : (Acquire tt key ttl now₀ now seed).2 = none) :
    (Acquire tt key ttl now₀ now seed).1.tokenCnt = tt.tokenCnt := by
  have hc := checkAtMaxPending_tokenCnt tt key now₀ seed
  cases hb : (checkAtMaxPending tt key now₀ seed).2 with
  | true =>
    rw [Acquire_of_check_true (Prod.ext rfl hb) ttl now]
    exact hc
  | false =>
    rw [Acquire_of_check_false (Prod.ext rfl hb) ttl now] at h ⊢
    split at h
    · simp at h
    · rename_i hcond
      rw [if_neg hcond]
      exact hc

/-- A call that grants no token leaves `tokenCnt` as it was. -/
theorem step_tokenCnt_of_not_granted {tt : Throttle} {op : Op} (h : granted tt op = none) :
    (step tt op).tokenCnt = tt.tokenCnt := by
  cases op with
  | acquire key ttl now₀ now seed => exact Acquire_denied_tokenCnt h
  | release id key => exact release_tokenCnt tt id key

/-- A call that grants a token sets `tokenCnt` to the id of the token, the successor of
the old value modulo `2 ^ 64`. -/
theorem step_tokenCnt_of_granted {tt : Throttle} {op : Op} {tok : Token}
    (h : granted tt op = some tok) :
    tok.id = (tt.tokenCnt + 1) % uint64Size ∧ (step tt op).tokenCnt = tok.id := by
  cases op with
  | acquire key ttl now₀ now seed =>
    obtain ⟨_, h2, h3, _⟩ := Acquire_granted h
    exact ⟨h2, h3⟩
  | release id key => simp [granted] at h

theorem grants_append (tt : Throttle) (ops ops' : List Op) :
    grants tt (ops ++ ops') = grants tt ops ++ grants (run tt ops) ops' := by
  induction ops generalizing tt with
  | nil => rfl
  | cons op ops ih =>
    show (granted tt op).toList ++ grants (step tt op) (ops ++ ops') = _
    rw [ih]
    simp [grants, run]

/-- The id of the `n`-th token (counted from 0) granted in a run. -/
theorem grants_getElem? (ops : List Op) :
    ∀ (tt : Throttle) (n : Nat) (tok : Token), (grants tt ops)[n]? = some tok →
      tok.id = (tt.tokenCnt + n + 1) % uint64Size := by
  induction ops with
  | nil => intro tt n tok h; simp [grants] at h
  | cons op ops ih =>
    intro tt n tok h
    cases hg : granted tt op with
    | none =>
      simp only [grants, hg, Option.toList, List.nil_append] at h
      rw [ih _ n tok h, step_tokenCnt_of_not_granted hg]
    | some t =>
      obtain ⟨hid, hcnt⟩ := step_tokenCnt_of_granted hg
      simp only [grants, hg, Option.toList, List.singleton_append] at h
      cases n with
      | zero =>
        simp only [List.getElem?_cons_zero, Option.some.injEq] at h
        subst h
        simpa using hid
      | succ n =>
        simp only [List.getElem?_cons_succ] at h
        rw [ih _ n tok h, hcnt, hid]
        rw [Nat.add_assoc, Nat.mod_add_mod]
        congr 1
        omega

/-- The counter after a run, modulo `2 ^ 64`. -/
theorem run_tokenCnt (ops : List Op) :
    ∀ tt : Throttle, (run tt ops).tokenCnt % uint64Size
      = (tt.tokenCnt + (grants tt ops).length) % uint64Size := by
  induction ops with
  | nil => intro tt; simp [run, grants]
  | cons op ops ih =>
    intro tt
    cases hg : granted tt op with
    | none =>
      simp only [run, grants, hg, Option.toList, List.nil_append]
      rw [ih, step_tokenCnt_of_not_granted hg]
    | some t =>
      obtain ⟨hid, hcnt⟩ := step_tokenCnt_of_granted hg
      simp only [run, grants, hg, Option.toList, List.singleton_append, List.length_cons]
      rw [ih, hcnt, hid, Nat.mod_add_mod]
      congr 1
      omega

/-- Ids of grants are below `2 ^ 64`. -/
theorem granted_id_lt {tt : Throttle} {key : String} {ttl now₀ now : Int} {seed : Nat}
    {tok : Token} (h : (Acquire tt key ttl now₀ now seed).2 = some tok) :
    tok.id < uint64Size := by
  rw [(Acquire_granted h).2.1]
  exact Nat.mod_lt _ (by norm_num [uint64Size])

/-- Two ids that are fewer than `2 ^ 64` grants apart differ. -/
theorem id_ne_of_lt {i d : Nat} (hd : 0 < d) (hlt : d < uint64Size) :
    (i + d) % uint64Size ≠ i := by
  rw [uint64Size_eq] at *
  omega

/-- C7, with ids taken modulo `2 ^ 64`: in every run from `NewThrottle max` the `n`-th
successful `Acquire` (counted from 1) returns a token with id `n mod 2 ^ 64`, so the first
id is 1; two tokens granted fewer than `2 ^ 64` grants apart have different ids; a denied
`Acquire` and every `release` leave `tokenCnt` unchanged. -/
theorem permit_ids (max : Int) (ops : List Op) :
    (∀ (n : Nat) (tok : Token), (grants (NewThrottle max) ops)[n]? = some tok →
      tok.id = (n + 1) % 2 ^ 64) ∧
    (∀ tok : Token, (grants (NewThrottle max) ops)[0]? = some tok → tok.id = 1) ∧
    (∀ (i j : Nat) (a b : Token), i < j → j < i + 2 ^ 64 →
      (grants (NewThrottle max) ops)[i]? = some a →
      (grants (NewThrottle max) ops)[j]? = some b → a.id ≠ b.id) ∧
    (∀ (tt : Throttle) (key : String) (ttl now₀ now : Int) (seed : Nat),
      (Acquire tt key ttl now₀ now seed).2 = none →
      (Acquire tt key ttl now₀ now seed).1.tokenCnt = tt.tokenCnt) ∧
    (∀ (tt : Throttle) (id : Nat) (key : String),
      (release tt id key).1.tokenCnt = tt.tokenCnt) := by
  have hn : ∀ (n : Nat) (tok : Token), (grants (NewThrottle max) ops)[n]? = some tok →
      tok.id = (n + 1) % 2 ^ 64 := by
    intro n tok h
    have := grants_getElem? ops (NewThrottle max) n tok h
    simpa [NewThrottle, uint64Size] using this
  refine ⟨hn, ?_, ?_, fun tt key ttl now₀ now seed h => Acquire_denied_tokenCnt h,
    release_tokenCnt⟩
  · intro tok h
    rw [hn 0 tok h]
    norm_num
  · intro i j a b hij hj ha hb
    rw [hn i a ha, hn j b hb]
    have h64 : (2 : Nat) ^ 64 = 18446744073709551616 := by norm_num
    rw [h64] at hj ⊢
    omega

/-! ### Runs that wrap the counter -/

theorem burst_succ (t₀ : Int) (n : Nat) :
    burst t₀ (n + 1) = burst t₀ n ++ [Op.acquire "x" 1 (t₀ + 2 * n) (t₀ + 2 * n) 0] := by
  simp [burst, List.range_succ]

/-- One more call of the burst. -/
theorem Acquire_burstState (c : Nat) (t₀ : Int) (n : Nat) :
    Acquire (burstState c t₀ n) "x" 1 (t₀ + 2 * n) (t₀ + 2 * n) 0
      = (burstState c t₀ (n + 1), some ⟨(c + n + 1) % uint64Size, "x"⟩) := by
  have htime : t₀ + 2 * (n : Int) + 1 = t₀ + 2 * ((n + 1 : Nat) : Int) - 1 := by
    push_cast; ring
  by_cases hn : n = 0
  · subst hn
    have hc : checkAtMaxPending (burstState c t₀ 0) "x" (t₀ + 2 * (0 : Nat)) 0
        = (burstState c t₀ 0, false) := by
      simp [checkAtMaxPending, burstState, len]
    rw [Acquire_of_check_false hc]
    have h21 : t₀ + 2 - 1 = t₀ + 1 := by ring
    simp [burstState, AList.insert_empty, h21]
  · have hexp : t₀ + 2 * (n : Int) - 1 < t₀ + 2 * n := by omega
    have hc : checkAtMaxPending (burstState c t₀ n) "x" (t₀ + 2 * n) 0
        = (⟨1, (c + n) % uint64Size, ∅⟩, false) := by
      have herase : ((AList.singleton "x"
          (⟨(c + n) % uint64Size, t₀ + 2 * n - 1⟩ : tstate) : TokenMap)).erase "x" = ∅ :=
        AList.ext (by simp [AList.erase, AList.singleton])
      simp [checkAtMaxPending, burstState, hn, len, expiredAt, AList.lookup,
        AList.singleton, herase]
      exact herase
    rw [Acquire_of_check_false hc]
    simp [burstState, AList.insert_empty, htime, Nat.add_assoc]

theorem run_burst (c : Nat) (t₀ : Int) (n : Nat) :
    run ⟨1, c, ∅⟩ (burst t₀ n) = burstState c t₀ n := by
  induction n with
  | zero => simp [burst, run, burstState]
  | succ n ih =>
    rw [burst_succ, run_append, ih]
    simp only [run, step, Acquire_burstState]

theorem grants_burst (c : Nat) (t₀ : Int) (n : Nat) :
    grants ⟨1, c, ∅⟩ (burst t₀ n)
      = (List.range n).map (fun i => (⟨(c + i + 1) % uint64Size, "x"⟩ : Token)) := by
  induction n with
  | zero => simp [burst, grants]
  | succ n ih =>
    rw [burst_succ, grants_append, ih, run_burst]
    simp [grants, granted, Acquire_burstState, List.range_succ]

/-- C7 as stated fails once the counter has wrapped: in the run of `2 ^ 64 + 1` grants on
key `x` from `NewThrottle 1`, the first token and the `(2 ^ 64 + 1)`-th token both have
id 1, and the `2 ^ 64`-th token has id 0. -/
theorem permit_id_reused :
    (grants (NewThrottle 1) (burst 0 (2 ^ 64 + 1)))[0]? = some ⟨1, "x"⟩ ∧
    (grants (NewThrottle 1) (burst 0 (2 ^ 64 + 1)))[2 ^ 64 - 1]? = some ⟨0, "x"⟩ ∧
    (grants (NewThrottle 1) (burst 0 (2 ^ 64 + 1)))[2 ^ 64]? = some ⟨1, "x"⟩ := by
  have h : grants (NewThrottle 1) (burst 0 (2 ^ 64 + 1))
      = (List.range (2 ^ 64 + 1)).map (fun i => (⟨(0 + i + 1) % uint64Size, "x"⟩ : Token)) :=
    grants_burst 0 0 (2 ^ 64 + 1)
  rw [h]
  simp only [List.getElem?_map, List.getElem?_range, uint64Size]
  refine ⟨?_, ?_, ?_⟩
  · rw [List.getElem?_range (by norm_num)]; rfl
  · rw [List.getElem?_range (by norm_num)]; simp
  · rw [List.getElem?_range (by norm_num)]; simp

/-! ### Expiry reclaim -/

/-- An `Acquire` for a key whose record has expired at both clock readings is granted. -/
theorem Acquire_expired_record {tt : Throttle} {k : String} {st : tstate}
    (hl : tt.tokenMap.lookup k = some st) (ttl now₀ now : Int) (seed : Nat)
    (h₀ : st.expire < now₀) (h : st.expire < now) :
    (Acquire tt k ttl now₀ now seed).2
      = some ⟨(tt.tokenCnt + 1) % uint64Size, k⟩ := by
  rcases checkAtMaxPending_cases tt k now₀ seed with
    ⟨_, hc⟩ | ⟨_, _, hc⟩ | ⟨_, hne, _⟩ | ⟨_, hnone, _⟩
  · rw [Acquire_of_check_false hc ttl now]
    simp [hl, expiredAt, h]
  · rw [Acquire_of_check_false hc ttl now]
    simp [AList.lookup_erase]
  · simp [hl, expiredAt, h₀] at hne
  · exact absurd h₀ (hnone k st hl)

/-- C8, with the id taken modulo `2 ^ 64`: in every state (of every capacity), if
`Acquire(k, ttl)` succeeds at clock value `t` and the next call on the limiter is
`Acquire(k, ttl₂)` with clock readings after `t + ttl`, then the second call succeeds and
its id is the first id plus one modulo `2 ^ 64`: strictly greater than the first id unless
the first id is `2 ^ 64 - 1`. -/
theorem expiry_reclaim (tt : Throttle) (k : String) (ttl t₀ t : Int) (seed : Nat)
    (tok₁ : Token) (hgrant : (Acquire tt k ttl t₀ t seed).2 = some tok₁)
    (ttl₂ t₀' t' : Int) (seed' : Nat) (h₀ : t + ttl < t₀') (h : t + ttl < t') :
    ∃ tok₂ : Token,
      (Acquire (Acquire tt k ttl t₀ t seed).1 k ttl₂ t₀' t' seed').2 = some tok₂ ∧
      tok₂.id = (tok₁.id + 1) % 2 ^ 64 ∧
      (tok₁.id ≠ 2 ^ 64 - 1 → tok₁.id < tok₂.id) := by
  obtain ⟨_, hid, hcnt, hrec⟩ := Acquire_granted hgrant
  have h2 := Acquire_expired_record hrec ttl₂ t₀' t' seed' h₀ h
  refine ⟨_, h2, ?_, ?_⟩
  · simp only [hcnt]
    rfl
  · intro hne
    have hlt : tok₁.id < uint64Size := granted_id_lt hgrant
    simp only [hcnt]
    rw [uint64Size_eq] at hlt ⊢
    have h64 : (2 : Nat) ^ 64 = 18446744073709551616 := by norm_num
    rw [h64] at hne
    omega

/-- C8 on the scenario of the specification, in nanoseconds: on `NewThrottle(1)`,
`Acquire("x", 10ms)` gives id 1 and, 20ms later, `Acquire("x", 10ms)` gives id 2. -/
theorem expiry_reclaim_witness :
    (Acquire (NewThrottle 1) "x" 10000000 0 0 0).2 = some ⟨1, "x"⟩ ∧
    (Acquire (Acquire (NewThrottle 1) "x" 10000000 0 0 0).1 "x" 10000000
      20000000 20000000 0).2 = some ⟨2, "x"⟩ ∧
    ∃ tok₂ : Token,
      (Acquire (Acquire (NewThrottle 1) "x" 10000000 0 0 0).1 "x" 10000000
        20000000 20000000 0).2 = some tok₂ ∧
      tok₂.id = (1 + 1) % 2 ^ 64 ∧ ((1 : Nat) ≠ 2 ^ 64 - 1 → 1 < tok₂.id) :=
  ⟨by decide, by decide,
   expiry_reclaim (NewThrottle 1) "x" 10000000 0 0 0 ⟨1, "x"⟩ (by decide)
    10000000 20000000 20000000 0 (by decide) (by decide)⟩

/-- C8 as stated fails when the counter wraps between the two calls: in the state
reached from `NewThrottle 1` by `2 ^ 64 - 2` grants, `Acquire("x", 1)` at clock
`2 ^ 65 - 4` is granted with id `2 ^ 64 - 1`; the next call, `Acquire("x", 1)` at clock
`2 ^ 65 - 2`, after the expiry at `2 ^ 65 - 3`, is granted with id `0`. -/
theorem expiry_reclaim_id_wraps :
    (Acquire (run (NewThrottle 1) (burst 0 (2 ^ 64 - 2))) "x" 1
      (2 ^ 65 - 4) (2 ^ 65 - 4) 0).2 = some ⟨2 ^ 64 - 1, "x"⟩ ∧
    (2 ^ 65 - 4 : Int) + 1 < 2 ^ 65 - 2 ∧
    (Acquire (Acquire (run (NewThrottle 1) (burst 0 (2 ^ 64 - 2))) "x" 1
      (2 ^ 65 - 4) (2 ^ 65 - 4) 0).1 "x" 1 (2 ^ 65 - 2) (2 ^ 65 - 2) 0).2
      = some ⟨0, "x"⟩ := by
  have h : run (NewThrottle 1) (burst 0 (2 ^ 64 - 2)) = burstState 0 0 (2 ^ 64 - 2) :=
    run_burst 0 0 (2 ^ 64 - 2)
  rw [h]
  decide

/-! ### Which records a call can leave for a key -/

theorem lookup_erase_some {m : TokenMap} {x k : String} {st : tstate}
    (h : (m.erase x).lookup k = some st) : m.lookup k = some st := by
  by_cases hk : k = x
  · subst hk
    rw [AList.lookup_erase] at h
    exact absurd h (by simp)
  · rwa [AList.lookup_erase_ne hk] at h

/-- A record found after `checkAtMaxPending` was there before. -/
theorem checkAtMaxPending_lookup_some {tt : Throttle} {key : String} {now : Int} {seed : Nat}
    {k : String} {st : tstate}
    (h : (checkAtMaxPending tt key now seed).1.tokenMap.lookup k = some st) :
    tt.tokenMap.lookup k = some st := by
  rcases checkAtMaxPending_cases tt key now seed with
    ⟨_, hc⟩ | ⟨_, _, hc⟩ | ⟨_, _, _, _, _, _, _, hc⟩ | ⟨_, _, hc⟩
  · rwa [hc] at h
  · rw [hc] at h; exact lookup_erase_some h
  · rw [hc] at h; exact lookup_erase_some h
  · rwa [hc] at h

/-- A record found after `Acquire` was there before, or is the record of the token that
the call granted. -/
theorem Acquire_lookup_some {tt : Throttle} {key : String} {ttl now₀ now : Int} {seed : Nat}
    {k : String} {st : tstate}
    (h : (Acquire tt key ttl now₀ now seed).1.tokenMap.lookup k = some st) :
    tt.tokenMap.lookup k = some st ∨
    (k = key ∧ (Acquire tt key ttl now₀ now seed).2 = some ⟨st.id, key⟩ ∧
      st.expire = now + ttl) := by
  cases hb : (checkAtMaxPending tt key now₀ seed).2 with
  | true =>
    rw [Acquire_of_check_true (Prod.ext rfl hb) ttl now] at h
    exact Or.inl (checkAtMaxPending_lookup_some h)
  | false =>
    rw [Acquire_of_check_false (Prod.ext rfl hb) ttl now] at h ⊢
    split at h
    · rename_i hcond
      rw [if_pos hcond]
      by_cases hk : k = key
      · subst hk
        simp only [AList.lookup_insert, Option.some.injEq] at h
        subst h
        exact Or.inr ⟨rfl, rfl, rfl⟩
      · simp only [AList.lookup_insert_ne hk] at h
        exact Or.inl (checkAtMaxPending_lookup_some h)
    · exact Or.inl (checkAtMaxPending_lookup_some h)

/-- A record found after `release` was there before. -/
theorem release_lookup_some {tt : Throttle} {id : Nat} {key k : String} {st : tstate}
    (h : (release tt id key).1.tokenMap.lookup k = some st) :
    tt.tokenMap.lookup k = some st := by
  unfold release at h
  split at h
  · exact h
  · split at h
    · exact lookup_erase_some h
    · exact h

/-- While fewer than `2 ^ 64` tokens have been granted since the token with id `i`, no
call stores a record with id `i`. -/
theorem run_id_absent (i : Nat) (k : String) (ops : List Op) :
    ∀ (tt : Throttle) (d : Nat), tt.tokenCnt % uint64Size = (i + d) % uint64Size →
      d + (grants tt ops).length < uint64Size →
      (∀ st, tt.tokenMap.lookup k = some st → st.id ≠ i) →
      ∀ st, (run tt ops).tokenMap.lookup k = some st → st.id ≠ i := by
  induction ops with
  | nil => intro tt d _ _ hno st h; exact hno st h
  | cons op ops ih =>
    intro tt d hcnt hfew hno
    cases hg : granted tt op with
    | none =>
      simp only [grants, hg, Option.toList, List.nil_append] at hfew
      refine ih (step tt op) d ?_ hfew ?_
      · rw [step_tokenCnt_of_not_granted hg]; exact hcnt
      · intro st hst
        cases op with
        | acquire key ttl now₀ now seed =>
          rcases Acquire_lookup_some hst with h | ⟨_, h, _⟩
          · exact hno st h
          · simp only [granted] at hg
            rw [hg] at h
            exact absurd h (by simp)
        | release id key => exact hno st (release_lookup_some hst)
    | some t =>
      obtain ⟨hid, hstep⟩ := step_tokenCnt_of_granted hg
      simp only [grants, hg, Option.toList, List.singleton_append, List.length_cons] at hfew
      have htid : t.id = (i + (d + 1)) % uint64Size := by
        rw [hid]
        rw [uint64Size_eq] at hcnt ⊢
        omega
      refine ih (step tt op) (d + 1) ?_ (by omega) ?_
      · rw [hstep, htid, Nat.mod_mod]
      · intro st hst
        cases op with
        | acquire key ttl now₀ now seed =>
          rcases Acquire_lookup_some hst with h | ⟨_, h, _⟩
          · exact hno st h
          · simp only [granted] at hg
            rw [hg] at h
            simp only [Option.some.injEq] at h
            have : st.id = t.id := by rw [h]
            rw [this, htid]
            exact id_ne_of_lt (by omega) (by omega)
        | release id key => simp [granted] at hg

/-! ### Stale and repeated releases -/

/-- C5, for tokens fewer than `2 ^ 64` grants apart: in every run (from `NewThrottle` or
any other state), if `Acquire(k, ..)` granted `h₁`, a later `Acquire(k, ..)` granted `h₂`
with fewer than `2 ^ 64` tokens granted after `h₁` up to and including `h₂`, and the
record of `h₂` is still in the table, then the ids differ, `h₁.Release()` returns false
and leaves the state unchanged, so `tokenMap[k]` still holds the id of `h₂`. -/
theorem stale_release_rejected (tt s₁ s₂ : Throttle) (k : String) (ttl t₀ t : Int)
    (seed : Nat) (h₁ h₂ : Token)
    (hg₁ : Acquire tt k ttl t₀ t seed = (s₁, some h₁))
    (ops : List Op) (ttl' c₀ c : Int) (seed' : Nat)
    (hg₂ : Acquire (run s₁ ops) k ttl' c₀ c seed' = (s₂, some h₂))
    (hfew : (grants s₁ ops).length + 1 < 2 ^ 64)
    (ops' : List Op) (e : Int)
    (hrec : (run s₂ ops').tokenMap.lookup k = some ⟨h₂.id, e⟩) :
    h₁.id ≠ h₂.id ∧
    h₁.Release (run s₂ ops') = (run s₂ ops', false) ∧
    (h₁.Release (run s₂ ops')).1.tokenMap.lookup k = some ⟨h₂.id, e⟩ := by
  have e₁ : (Acquire tt k ttl t₀ t seed).2 = some h₁ := by rw [hg₁]
  have e₂ : (Acquire (run s₁ ops) k ttl' c₀ c seed').2 = some h₂ := by rw [hg₂]
  obtain ⟨hkey, _, hcnt₁, _⟩ := Acquire_granted e₁
  rw [hg₁] at hcnt₁
  simp only at hcnt₁
  have hid₂ := (Acquire_granted e₂).2.1
  have hrun := run_tokenCnt ops s₁
  have hlt := granted_id_lt e₁
  have h64 : (2 : Nat) ^ 64 = 18446744073709551616 := by norm_num
  rw [h64] at hfew
  rw [hcnt₁, uint64Size_eq] at hrun
  rw [uint64Size_eq] at hid₂ hlt
  have hne : h₁.id ≠ h₂.id := by omega
  subst hkey
  have hrel : h₁.Release (run s₂ ops') = (run s₂ ops', false) := by
    simp only [Token.Release, release, hrec]
    rw [if_neg (fun h => hne h.symm)]
  exact ⟨hne, hrel, by rw [hrel]; exact hrec⟩

/-- C5 on `NewThrottle 1`: `x` is granted with id 1, expires, and is granted again with
id 2; releasing the first token returns false and keeps the record with id 2. -/
theorem stale_release_rejected_witness :
    (⟨1, "x"⟩ : Token).id ≠ (⟨2, "x"⟩ : Token).id ∧
    (⟨1, "x"⟩ : Token).Release
        (run (Acquire (Acquire (NewThrottle 1) "x" 10 0 0 0).1 "x" 10 20 20 0).1 [])
      = (run (Acquire (Acquire (NewThrottle 1) "x" 10 0 0 0).1 "x" 10 20 20 0).1 [], false) ∧
    ((⟨1, "x"⟩ : Token).Release
        (run (Acquire (Acquire (NewThrottle 1) "x" 10 0 0 0).1 "x" 10 20 20 0).1 [])
      ).1.tokenMap.lookup "x" = some ⟨(⟨2, "x"⟩ : Token).id, 30⟩ :=
  stale_release_rejected (NewThrottle 1) (Acquire (NewThrottle 1) "x" 10 0 0 0).1
    (Acquire (Acquire (NewThrottle 1) "x" 10 0 0 0).1 "x" 10 20 20 0).1 "x" 10 0 0 0
    ⟨1, "x"⟩ ⟨2, "x"⟩ (Prod.ext rfl (by decide)) [] 10 20 20 0
    (Prod.ext rfl (by decide)) (by decide) [] 30 (by decide)

/-- C6, for fewer than `2 ^ 64` grants after the token: for every token `h` returned by
a successful `Acquire`, `h.Release()` called while the record of `h` is still in the
table returns true, and `h.Release()` called after any further calls `ops'` returns
false, as long as fewer than `2 ^ 64` tokens are granted after `h`. -/
theorem release_idempotent (tt s₁ : Throttle) (k : String) (ttl t₀ t : Int) (seed : Nat)
    (h : Token) (hg : Acquire tt k ttl t₀ t seed = (s₁, some h))
    (ops : List Op) (e : Int)
    (hrec : (run s₁ ops).tokenMap.lookup k = some ⟨h.id, e⟩)
    (ops' : List Op)
    (hfew : (grants s₁ ops).length + (grants (h.Release (run s₁ ops)).1 ops').length
      < 2 ^ 64) :
    (h.Release (run s₁ ops)).2 = true ∧
    (h.Release (run (h.Release (run s₁ ops)).1 ops')).2 = false := by
  have e₁ : (Acquire tt k ttl t₀ t seed).2 = some h := by rw [hg]
  obtain ⟨hkey, _, hcnt₁, _⟩ := Acquire_granted e₁
  rw [hg] at hcnt₁
  simp only at hcnt₁
  subst hkey
  have hrel : h.Release (run s₁ ops)
      = (⟨(run s₁ ops).maxParallel, (run s₁ ops).tokenCnt,
          (run s₁ ops).tokenMap.erase h.key⟩, true) := by
    simp [Token.Release, release, hrec]
  have hrun := run_tokenCnt ops s₁
  rw [hcnt₁] at hrun
  rw [hrel] at hfew ⊢
  refine ⟨rfl, ?_⟩
  have habs := run_id_absent h.id h.key ops'
    ⟨(run s₁ ops).maxParallel, (run s₁ ops).tokenCnt, (run s₁ ops).tokenMap.erase h.key⟩
    (grants s₁ ops).length hrun hfew (by
      intro st hst
      simp only [AList.lookup_erase] at hst
      exact absurd hst (by simp))
  simp only [Token.Release, release]
  split
  · rfl
  · rename_i st hst
    rw [if_neg (habs st hst)]

/-- C6 on `NewThrottle 2`: the token with id 1 for `a` is released after a grant on `b`;
after `a` is granted again and a second release of the old token is tried, releasing the
old token once more returns false. -/
theorem release_idempotent_witness :
    ((⟨1, "a"⟩ : Token).Release
      (run (Acquire (NewThrottle 2) "a" 10 0 0 0).1 [Op.acquire "b" 10 1 1 0])).2 = true ∧
    ((⟨1, "a"⟩ : Token).Release
      (run ((⟨1, "a"⟩ : Token).Release
          (run (Acquire (NewThrottle 2) "a" 10 0 0 0).1 [Op.acquire "b" 10 1 1 0])).1
        [Op.acquire "a" 10 2 2 0, Op.release 1 "a"])).2 = false :=
  release_idempotent (NewThrottle 2) (Acquire (NewThrottle 2) "a" 10 0 0 0).1 "a" 10 0 0 0
    ⟨1, "a"⟩ (Prod.ext rfl (by decide)) [Op.acquire "b" 10 1 1 0] 10 (by decide)
    [Op.acquire "a" 10 2 2 0, Op.release 1 "a"] (by decide)

theorem grants_burst_getElem? (c : Nat) (t₀ : Int) {i n : Nat} (h : i < n) :
    (grants ⟨1, c, ∅⟩ (burst t₀ n))[i]? = some ⟨(c + i + 1) % uint64Size, "x"⟩ := by
  rw [grants_burst, List.getElem?_map, List.getElem?_range h]
  rfl

/-- C5 as stated fails once the counter has wrapped: in the run of `2 ^ 64 + 1` grants on
key `x` from `NewThrottle 1`, the first grant `h₁` and the last grant `h₂` both have id
1, the record of `h₂` is in the table, and `h₁.Release()` returns true and deletes it. -/
theorem stale_release_deletes_after_wrap :
    (grants (NewThrottle 1) (burst 0 (2 ^ 64 + 1)))[0]? = some ⟨1, "x"⟩ ∧
    (grants (NewThrottle 1) (burst 0 (2 ^ 64 + 1)))[2 ^ 64]? = some ⟨1, "x"⟩ ∧
    (run (NewThrottle 1) (burst 0 (2 ^ 64 + 1))).tokenMap.lookup "x"
      = some ⟨1, 2 ^ 65 + 1⟩ ∧
    ((⟨1, "x"⟩ : Token).Release (run (NewThrottle 1) (burst 0 (2 ^ 64 + 1)))).2 = true ∧
    ((⟨1, "x"⟩ : Token).Release
      (run (NewThrottle 1) (burst 0 (2 ^ 64 + 1)))).1.tokenMap.lookup "x" = none := by
  have hrun : run (NewThrottle 1) (burst 0 (2 ^ 64 + 1)) = burstState 0 0 (2 ^ 64 + 1) :=
    run_burst 0 0 (2 ^ 64 + 1)
  have h0 := grants_burst_getElem? 0 0 (show 0 < 2 ^ 64 + 1 by norm_num)
  have h1 := grants_burst_getElem? 0 0 (show 2 ^ 64 < 2 ^ 64 + 1 by norm_num)
  refine ⟨?_, ?_, ?_, ?_, ?_⟩
  · rw [show NewThrottle 1 = ⟨1, 0, ∅⟩ from rfl, h0]; rfl
  · rw [show NewThrottle 1 = ⟨1, 0, ∅⟩ from rfl, h1]; decide
  · rw [hrun]; decide
  · rw [hrun]; decide
  · rw [hrun]; decide

/-- C6 as stated fails once the counter has wrapped: on `NewThrottle 1` the token with id
1 for `x` is granted and released (true); after `2 ^ 64` further grants on `x` the table
holds a record with id 1 again, and `Release()` on the old token returns true a second
time. -/
theorem release_true_twice_after_wrap :
    (Acquire (NewThrottle 1) "x" 1 0 0 0).2 = some ⟨1, "x"⟩ ∧
    ((⟨1, "x"⟩ : Token).Release (Acquire (NewThrottle 1) "x" 1 0 0 0).1).2 = true ∧
    ((⟨1, "x"⟩ : Token).Release
      (run ((⟨1, "x"⟩ : Token).Release (Acquire (NewThrottle 1) "x" 1 0 0 0).1).1
        (burst 2 (2 ^ 64)))).2 = true := by
  have hs : ((⟨1, "x"⟩ : Token).Release (Acquire (NewThrottle 1) "x" 1 0 0 0).1).1
      = ⟨1, 1, ∅⟩ := by
    rfl
  refine ⟨by decide, by decide, ?_⟩
  rw [hs, run_burst]
  decide

/-! ### Fabricated handles -/

/-- While the counter has not wrapped, it counts the grants and every record of the table
carries an id between 1 and the counter. -/
theorem run_ids_bounded (ops : List Op) :
    ∀ tt : Throttle,
      (∀ k st, tt.tokenMap.lookup k = some st → 1 ≤ st.id ∧ st.id ≤ tt.tokenCnt) →
      tt.tokenCnt + (grants tt ops).length < uint64Size →
      (run tt ops).tokenCnt = tt.tokenCnt + (grants tt ops).length ∧
      ∀ k st, (run tt ops).tokenMap.lookup k = some st →
        1 ≤ st.id ∧ st.id ≤ (run tt ops).tokenCnt := by
  induction ops with
  | nil => intro tt hinv _; exact ⟨by simp [run, grants], hinv⟩
  | cons op ops ih =>
    intro tt hinv hfew
    cases hg : granted tt op with
    | none =>
      simp only [grants, hg, Option.toList, List.nil_append] at hfew ⊢
      have hcnt := step_tokenCnt_of_not_granted hg
      have hinv' : ∀ k st, (step tt op).tokenMap.lookup k = some st →
          1 ≤ st.id ∧ st.id ≤ (step tt op).tokenCnt := by
        intro k st hst
        rw [hcnt]
        cases op with
        | acquire key ttl now₀ now seed =>
          rcases Acquire_lookup_some hst with h | ⟨_, h, _⟩
          · exact hinv k st h
          · simp only [granted] at hg
            rw [hg] at h
            exact absurd h (by simp)
        | release id key => exact hinv k st (release_lookup_some hst)
      have := ih (step tt op) hinv' (by rw [hcnt]; exact hfew)
      rw [hcnt] at this
      exact this
    | some t =>
      obtain ⟨hid, hstep⟩ := step_tokenCnt_of_granted hg
      simp only [grants, hg, Option.toList, List.singleton_append, List.length_cons]
        at hfew ⊢
      have htid : t.id = tt.tokenCnt + 1 := by
        rw [hid]
        exact Nat.mod_eq_of_lt (by omega)
      have hcnt : (step tt op).tokenCnt = tt.tokenCnt + 1 := by rw [hstep, htid]
      have hinv' : ∀ k st, (step tt op).tokenMap.lookup k = some st →
          1 ≤ st.id ∧ st.id ≤ (step tt op).tokenCnt := by
        intro k st hst
        rw [hcnt]
        cases op with
        | acquire key ttl now₀ now seed =>
          rcases Acquire_lookup_some hst with h | ⟨_, h, _⟩
          · have := hinv k st h
            omega
          · simp only [granted] at hg
            rw [hg] at h
            simp only [Option.some.injEq] at h
            have hst_id : st.id = t.id := by rw [h]
            omega
        | release id key => simp [granted] at hg
      have := ih (step tt op) hinv' (by rw [hcnt]; omega)
      rw [hcnt] at this
      refine ⟨?_, this.2⟩
      show (run (step tt op) ops).tokenCnt = _
      omega

/-- While fewer than `2 ^ 64` tokens have been granted, no record carries the id 0 or an
id above the counter, so a `release` with such an id changes nothing. -/
theorem release_out_of_range (max : Int) (ops : List Op)
    (hfew : (grants (NewThrottle max) ops).length < 2 ^ 64)
    (id : Nat) (key : String)
    (hid : id = 0 ∨ (run (NewThrottle max) ops).tokenCnt < id) :
    release (run (NewThrottle max) ops) id key = (run (NewThrottle max) ops, false) := by
  have hinv := (run_ids_bounded ops (NewThrottle max)
    (by intro k st h; simp [NewThrottle] at h)
    (by simpa [NewThrottle, uint64Size] using hfew)).2
  unfold release
  split
  · rfl
  · rename_i st hst
    have := hinv key st hst
    rw [if_neg (by omega)]

/-- Every record of the table after a run was in the table before it or carries the id of
a token granted during the run. -/
theorem run_record_issued {k : String} {st : tstate} (ops : List Op) :
    ∀ tt : Throttle, (run tt ops).tokenMap.lookup k = some st →
      tt.tokenMap.lookup k = some st ∨ ∃ tok ∈ grants tt ops, tok.id = st.id := by
  induction ops with
  | nil => intro tt h; exact Or.inl h
  | cons op ops ih =>
    intro tt h
    rcases ih (step tt op) h with hstep | ⟨tok, hmem, hid⟩
    · cases op with
      | acquire key ttl now₀ now seed =>
        rcases Acquire_lookup_some hstep with h' | ⟨_, hg, _⟩
        · exact Or.inl h'
        · right
          refine ⟨⟨st.id, key⟩, ?_, rfl⟩
          simp only [grants, granted, hg, Option.toList, List.singleton_append,
            List.mem_cons, true_or]
      | release id key => exact Or.inl (release_lookup_some hstep)
    · right
      refine ⟨tok, ?_, hid⟩
      simp only [grants, List.mem_append]
      exact Or.inr hmem

/-- C11: in every state reached from `NewThrottle max` by any run, `release(id, key)`
with an id that no `Acquire` of the run has issued, for any key, returns false and leaves
the whole state (`tokenMap`, `tokenCnt`, `maxParallel`) unchanged.  (The ids `0` and
those above `tokenCnt` are such ids while fewer than `2 ^ 64` tokens have been granted,
see `release_out_of_range`.) -/
theorem fabricated_release (max : Int) (ops : List Op) (id : Nat) (key : String)
    (hnever : ∀ tok ∈ grants (NewThrottle max) ops, tok.id ≠ id) :
    release (run (NewThrottle max) ops) id key = (run (NewThrottle max) ops, false) := by
  unfold release
  split
  · rfl
  · rename_i st hst
    rcases run_record_issued ops (NewThrottle max) hst with h | ⟨tok, hmem, hid⟩
    · simp [NewThrottle] at h
    · rw [if_neg (fun heq => hnever tok hmem (hid.trans heq))]

/-- C11 on `NewThrottle 2` after the grants of ids 1 and 2: releasing the id 7, which was
never issued, on key `a` returns false and changes nothing. -/
theorem fabricated_release_witness :
    (∀ tok ∈ grants (NewThrottle 2) [Op.acquire "a" 9 0 0 0, Op.acquire "b" 9 1 1 0],
      tok.id ≠ 7) ∧
    release (run (NewThrottle 2) [Op.acquire "a" 9 0 0 0, Op.acquire "b" 9 1 1 0]) 7 "a"
      = (run (NewThrottle 2) [Op.acquire "a" 9 0 0 0, Op.acquire "b" 9 1 1 0], false) :=
  ⟨by decide,
   fabricated_release 2 [Op.acquire "a" 9 0 0 0, Op.acquire "b" 9 1 1 0] 7 "a"
      (by decide)⟩

/-! ### Negative capacity -/

/-- With a negative capacity every `Acquire` on the empty table is denied and changes
nothing. -/
theorem Acquire_negative (max : Int) (hneg : max < 0) (key : String) (ttl now₀ now : Int)
    (seed : Nat) :
    Acquire (NewThrottle max) key ttl now₀ now seed = (NewThrottle max, none) := by
  rcases checkAtMaxPending_cases (NewThrottle max) key now₀ seed with
    ⟨hcap, _⟩ | ⟨_, ⟨st, hl, _⟩, _⟩ | ⟨_, _, skey, st, _, hl, _, _⟩ | ⟨_, _, hc⟩
  · simp only [NewThrottle, len, AList.empty_entries, List.length_nil] at hcap
    rcases hcap with h | h
    · omega
    · simp at h; omega
  · simp [NewThrottle] at hl
  · simp [NewThrottle] at hl
  · exact Acquire_of_check_true hc ttl now

theorem step_negative (max : Int) (hneg : max < 0) (op : Op) :
    step (NewThrottle max) op = NewThrottle max ∧ granted (NewThrottle max) op = none := by
  cases op with
  | acquire key ttl now₀ now seed =>
    simp only [step, granted, Acquire_negative max hneg]
    exact ⟨trivial, trivial⟩
  | release id key =>
    simp [step, granted, release, NewThrottle]

theorem run_negative (max : Int) (hneg : max < 0) (ops : List Op) :
    run (NewThrottle max) ops = NewThrottle max ∧ grants (NewThrottle max) ops = [] := by
  induction ops with
  | nil => exact ⟨rfl, rfl⟩
  | cons op ops ih =>
    obtain ⟨hs, hg⟩ := step_negative max hneg op
    simp only [run, grants, hs, hg, ih]
    exact ⟨trivial, rfl⟩

/-- C17: for a limiter created by `NewThrottle(max)` with `max < 0`, after any sequence
of operations every `Acquire(key, ttl)`, for every key, ttl, clock readings and scan
order, returns nil; no call of the sequence is granted, `tokenMap` stays empty and
`tokenCnt` stays 0. -/
theorem negative_capacity_denies (max : Int) (hneg : max < 0) (ops : List Op)
    (key : String) (ttl now₀ now : Int) (seed : Nat) :
    (Acquire (run (NewThrottle max) ops) key ttl now₀ now seed).2 = none ∧
    grants (NewThrottle max) ops = [] ∧
    (run (NewThrottle max) ops).tokenMap = ∅ ∧
    (run (NewThrottle max) ops).tokenCnt = 0 ∧
    (Acquire (run (NewThrottle max) ops) key ttl now₀ now seed).1.tokenMap = ∅ ∧
    (Acquire (run (NewThrottle max) ops) key ttl now₀ now seed).1.tokenCnt = 0 := by
  obtain ⟨hrun, hgr⟩ := run_negative max hneg ops
  rw [hrun, Acquire_negative max hneg]
  exact ⟨rfl, hgr, rfl, rfl, rfl, rfl⟩

/-- C17 on `NewThrottle (-1)` after two attempts and a release. -/
theorem negative_capacity_denies_witness :
    (Acquire (run (NewThrottle (-1))
        [Op.acquire "a" 5 0 0 0, Op.release 1 "a", Op.acquire "b" 5 9 9 3])
      "a" 5 20 20 0).2 = none ∧
    grants (NewThrottle (-1))
      [Op.acquire "a" 5 0 0 0, Op.release 1 "a", Op.acquire "b" 5 9 9 3] = [] ∧
    (run (NewThrottle (-1))
      [Op.acquire "a" 5 0 0 0, Op.release 1 "a", Op.acquire "b" 5 9 9 3]).tokenMap = ∅ ∧
    (run (NewThrottle (-1))
      [Op.acquire "a" 5 0 0 0, Op.release 1 "a", Op.acquire "b" 5 9 9 3]).tokenCnt = 0 ∧
    (Acquire (run (NewThrottle (-1))
        [Op.acquire "a" 5 0 0 0, Op.release 1 "a", Op.acquire "b" 5 9 9 3])
      "a" 5 20 20 0).1.tokenMap = ∅ ∧
    (Acquire (run (NewThrottle (-1))
        [Op.acquire "a" 5 0 0 0, Op.release 1 "a", Op.acquire "b" 5 9 9 3])
      "a" 5 20 20 0).1.tokenCnt = 0 :=
  negative_capacity_denies (-1) (by decide)
    [Op.acquire "a" 5 0 0 0, Op.release 1 "a", Op.acquire "b" 5 9 9 3] "a" 5 20 20 0

/-! ### What an `Acquire` does to the table -/

/-- The table after `Acquire`, from the table after `checkAtMaxPending`: the same table
when the call is denied, that table with the record of the new token stored at `key`
when it is granted. -/
theorem Acquire_after_check (tt : Throttle) (key : String) (ttl now₀ now : Int) (seed : Nat) :
    ((Acquire tt key ttl now₀ now seed).2 = none ∧
      (Acquire tt key ttl now₀ now seed).1 = (checkAtMaxPending tt key now₀ seed).1) ∨
    ((checkAtMaxPending tt key now₀ seed).2 = false ∧
      (Acquire tt key ttl now₀ now seed).2 = some ⟨(tt.tokenCnt + 1) % uint64Size, key⟩ ∧
      (Acquire tt key ttl now₀ now seed).1.tokenMap
        = (checkAtMaxPending tt key now₀ seed).1.tokenMap.insert key
            ⟨(tt.tokenCnt + 1) % uint64Size, now + ttl⟩) := by
  have hcnt := checkAtMaxPending_tokenCnt tt key now₀ seed
  cases hb : (checkAtMaxPending tt key now₀ seed).2 with
  | true =>
    left
    rw [Acquire_of_check_true (Prod.ext rfl hb) ttl now]
    exact ⟨rfl, rfl⟩
  | false =>
    rw [Acquire_of_check_false (Prod.ext rfl hb) ttl now]
    split
    · right
      rw [hcnt]
      exact ⟨rfl, rfl, rfl⟩
    · left
      exact ⟨rfl, rfl⟩

/-- The records of the keys other than the requested one after `Acquire`: all as before,
or all as before but for one key `skey`, whose record had expired at the clock reading
of `checkAtMaxPending` and is gone; the second happens only at capacity and when the
requested key has no record expired at that reading. -/
theorem Acquire_other_keys (tt : Throttle) (key : String) (ttl now₀ now : Int) (seed : Nat) :
    (∀ k, k ≠ key →
      (Acquire tt key ttl now₀ now seed).1.tokenMap.lookup k = tt.tokenMap.lookup k) ∨
    (∃ skey st, skey ≠ key ∧ tt.tokenMap.lookup skey = some st ∧ st.expire < now₀ ∧
      ¬ (tt.maxParallel = 0 ∨ (len tt.tokenMap : Int) < tt.maxParallel) ∧
      expiredAt now₀ (tt.tokenMap.lookup key) = false ∧
      (Acquire tt key ttl now₀ now seed).1.tokenMap.lookup skey = none ∧
      ∀ k, k ≠ key → k ≠ skey →
        (Acquire tt key ttl now₀ now seed).1.tokenMap.lookup k = tt.tokenMap.lookup k) := by
  have hA : ∀ k, k ≠ key →
      (Acquire tt key ttl now₀ now seed).1.tokenMap.lookup k
        = (checkAtMaxPending tt key now₀ seed).1.tokenMap.lookup k := by
    intro k hk
    rcases Acquire_after_check tt key ttl now₀ now seed with ⟨_, h⟩ | ⟨_, _, h⟩
    · rw [h]
    · rw [h, AList.lookup_insert_ne hk]
  rcases checkAtMaxPending_cases tt key now₀ seed with
    ⟨_, hc⟩ | ⟨_, _, hc⟩ | ⟨hcap, hne, skey, st, hsk, hl, hx, hc⟩ | ⟨_, _, hc⟩
  · left
    intro k hk
    rw [hA k hk, hc]
  · left
    intro k hk
    rw [hA k hk, hc]
    exact AList.lookup_erase_ne hk
  · right
    refine ⟨skey, st, hsk, hl, hx, hcap, hne, ?_, ?_⟩
    · rw [hA skey hsk, hc]
      exact AList.lookup_erase skey tt.tokenMap
    · intro k hk hks
      rw [hA k hk, hc]
      exact AList.lookup_erase_ne hks
  · left
    intro k hk
    rw [hA k hk, hc]

/-! ### Priority of the requested key -/

/-- C12: for every state with `maxParallel > 0` and `len(tokenMap) ≥ maxParallel` in which
the requested key has a record with `expire < now₀` (`now₀` the clock reading of the
capacity check; `now`, the later reading, is arbitrary and may equal it),
`Acquire(key, ttl)` grants a token, stores its record at `key`, and leaves the record of
every other key exactly as it was, expired or not, and with it the size of the table. -/
theorem requested_key_priority (tt : Throttle) (key : String) (ttl now₀ now : Int)
    (seed : Nat) (hpos : 0 < tt.maxParallel)
    (hfull : tt.maxParallel ≤ (len tt.tokenMap : Int))
    (st : tstate) (hl : tt.tokenMap.lookup key = some st) (hx : st.expire < now₀) :
    (Acquire tt key ttl now₀ now seed).2
      = some ⟨(tt.tokenCnt + 1) % uint64Size, key⟩ ∧
    (Acquire tt key ttl now₀ now seed).1.tokenMap.lookup key
      = some ⟨(tt.tokenCnt + 1) % uint64Size, now + ttl⟩ ∧
    (∀ k, k ≠ key →
      (Acquire tt key ttl now₀ now seed).1.tokenMap.lookup k = tt.tokenMap.lookup k) ∧
    len (Acquire tt key ttl now₀ now seed).1.tokenMap = len tt.tokenMap := by
  have hc : checkAtMaxPending tt key now₀ seed
      = ({ tt with tokenMap := tt.tokenMap.erase key }, false) := by
    rcases checkAtMaxPending_cases tt key now₀ seed with
      ⟨hcap, _⟩ | ⟨_, _, hc⟩ | ⟨_, hne, _⟩ | ⟨_, hnone, _⟩
    · rcases hcap with h | h <;> omega
    · exact hc
    · simp [hl, expiredAt, hx] at hne
    · exact absurd hx (hnone key st hl)
  have hA := Acquire_of_check_false hc ttl now
  simp only [AList.lookup_erase, Option.isNone_none, Bool.true_or, if_true] at hA
  rw [hA]
  refine ⟨rfl, AList.lookup_insert _, ?_, ?_⟩
  · intro k hk
    simp only [AList.lookup_insert_ne hk, AList.lookup_erase_ne hk]
  · have h1 := len_insert_of_not_mem (tt.tokenMap.erase key) key
      ⟨(tt.tokenCnt + 1) % uint64Size, now + ttl⟩
      (by rw [AList.mem_erase]; exact fun h => h.1 rfl)
    have h2 := len_erase_of_mem tt.tokenMap key (mem_of_lookup hl)
    simp only
    omega

/-- C12 at capacity 2 with both records expired: the `Acquire` of `a` at clock 50 is
granted, and the expired record of `b` stays. -/
theorem requested_key_priority_witness :
    (Acquire (run (NewThrottle 2) [Op.acquire "a" 5 0 0 0, Op.acquire "b" 5 1 1 0])
      "a" 5 50 50 1).2
      = some ⟨((run (NewThrottle 2)
          [Op.acquire "a" 5 0 0 0, Op.acquire "b" 5 1 1 0]).tokenCnt + 1) % uint64Size,
          "a"⟩ ∧
    (Acquire (run (NewThrottle 2) [Op.acquire "a" 5 0 0 0, Op.acquire "b" 5 1 1 0])
      "a" 5 50 50 1).1.tokenMap.lookup "a"
      = some ⟨((run (NewThrottle 2)
          [Op.acquire "a" 5 0 0 0, Op.acquire "b" 5 1 1 0]).tokenCnt + 1) % uint64Size,
          50 + 5⟩ ∧
    (∀ k, k ≠ "a" →
      (Acquire (run (NewThrottle 2) [Op.acquire "a" 5 0 0 0, Op.acquire "b" 5 1 1 0])
        "a" 5 50 50 1).1.tokenMap.lookup k
      = (run (NewThrottle 2)
          [Op.acquire "a" 5 0 0 0, Op.acquire "b" 5 1 1 0]).tokenMap.lookup k) ∧
    len (Acquire (run (NewThrottle 2) [Op.acquire "a" 5 0 0 0, Op.acquire "b" 5 1 1 0])
      "a" 5 50 50 1).1.tokenMap
      = len (run (NewThrottle 2)
          [Op.acquire "a" 5 0 0 0, Op.acquire "b" 5 1 1 0]).tokenMap :=
  requested_key_priority
    (run (NewThrottle 2) [Op.acquire "a" 5 0 0 0, Op.acquire "b" 5 1 1 0])
    "a" 5 50 50 1 (by decide) (by decide) ⟨1, 5⟩ (by decide) (by decide)

/-! ### Eviction -/

/-- C13: for every state and every call `Acquire(key, ttl)`, whatever the order of the
scan (`seed`): the record of a key other than `key` is after the call what it was before
or is gone, never modified or added; a record of another key that is gone had
`expire < now₀`, the clock reading of `checkAtMaxPending` (the clock value of the call);
at most one key other than `key` loses its record; and when `maxParallel > 0` and
`len(tokenMap) < maxParallel` no record of another key is removed. -/
theorem eviction_only_expired (tt : Throttle) (key : String) (ttl now₀ now : Int)
    (seed : Nat) :
    (∀ k, k ≠ key →
      (Acquire tt key ttl now₀ now seed).1.tokenMap.lookup k = tt.tokenMap.lookup k ∨
      (Acquire tt key ttl now₀ now seed).1.tokenMap.lookup k = none) ∧
    (∀ k st, k ≠ key → tt.tokenMap.lookup k = some st →
      (Acquire tt key ttl now₀ now seed).1.tokenMap.lookup k = none → st.expire < now₀) ∧
    (∀ k₁ k₂, k₁ ≠ key → k₂ ≠ key →
      tt.tokenMap.lookup k₁ ≠ none →
      (Acquire tt key ttl now₀ now seed).1.tokenMap.lookup k₁ = none →
      tt.tokenMap.lookup k₂ ≠ none →
      (Acquire tt key ttl now₀ now seed).1.tokenMap.lookup k₂ = none → k₁ = k₂) ∧
    (0 < tt.maxParallel → (len tt.tokenMap : Int) < tt.maxParallel →
      ∀ k, k ≠ key →
        (Acquire tt key ttl now₀ now seed).1.tokenMap.lookup k = tt.tokenMap.lookup k) := by
  rcases Acquire_other_keys tt key ttl now₀ now seed with
    hsame | ⟨skey, st, hsk, hl, hx, hcap, _, hgone, hrest⟩
  · refine ⟨fun k hk => Or.inl (hsame k hk), ?_, ?_, fun _ _ => hsame⟩
    · intro k st hk hbefore hafter
      rw [hsame k hk, hbefore] at hafter
      exact absurd hafter (by simp)
    · intro k₁ k₂ hk₁ _ hb₁ ha₁ _ _
      rw [hsame k₁ hk₁] at ha₁
      exact absurd ha₁ hb₁
  · have hkeep : ∀ k, k ≠ key → tt.tokenMap.lookup k ≠ none →
        (Acquire tt key ttl now₀ now seed).1.tokenMap.lookup k = none → k = skey := by
      intro k hk hb ha
      by_contra hne
      rw [hrest k hk hne] at ha
      exact hb ha
    refine ⟨?_, ?_, ?_, ?_⟩
    · intro k hk
      by_cases hks : k = skey
      · subst hks; exact Or.inr hgone
      · exact Or.inl (hrest k hk hks)
    · intro k st' hk hbefore hafter
      have hks : k = skey := hkeep k hk (by rw [hbefore]; simp) hafter
      subst hks
      rw [hl] at hbefore
      simp only [Option.some.injEq] at hbefore
      subst hbefore
      exact hx
    · intro k₁ k₂ hk₁ hk₂ hb₁ ha₁ hb₂ ha₂
      rw [hkeep k₁ hk₁ hb₁ ha₁, hkeep k₂ hk₂ hb₂ ha₂]
    · intro _ hlt
      exact absurd (Or.inr hlt) hcap

/-! ### Denied calls -/

/-- C15: for every state and every call `Acquire(key, ttl)` that returns nil, `tokenCnt`
(and `maxParallel`) is unchanged and the record of the requested key is unchanged; the
state is unchanged entirely when the table is at capacity with no record expired (the
denial of the capacity check `checkAtMaxPending`); and in every case the table is the old
one or the old one with one record deleted, that of a key other than `key` which had
expired at the clock reading `now₀` of the capacity check. -/
theorem denied_acquire_effect (tt : Throttle) (key : String) (ttl now₀ now : Int)
    (seed : Nat) (hden : (Acquire tt key ttl now₀ now seed).2 = none) :
    (Acquire tt key ttl now₀ now seed).1.tokenCnt = tt.tokenCnt ∧
    (Acquire tt key ttl now₀ now seed).1.maxParallel = tt.maxParallel ∧
    (Acquire tt key ttl now₀ now seed).1.tokenMap.lookup key = tt.tokenMap.lookup key ∧
    ((checkAtMaxPending tt key now₀ seed).2 = true →
      (Acquire tt key ttl now₀ now seed).1 = tt) ∧
    ((¬ (tt.maxParallel = 0 ∨ (len tt.tokenMap : Int) < tt.maxParallel) ∧
        ∀ k st, tt.tokenMap.lookup k = some st → ¬ st.expire < now₀) →
      (Acquire tt key ttl now₀ now seed).1 = tt) ∧
    ((Acquire tt key ttl now₀ now seed).1.tokenMap = tt.tokenMap ∨
      ∃ skey st, skey ≠ key ∧ tt.tokenMap.lookup skey = some st ∧ st.expire < now₀ ∧
        (Acquire tt key ttl now₀ now seed).1.tokenMap = tt.tokenMap.erase skey) := by
  have hA : (Acquire tt key ttl now₀ now seed).1 = (checkAtMaxPending tt key now₀ seed).1 := by
    rcases Acquire_after_check tt key ttl now₀ now seed with ⟨_, h⟩ | ⟨_, h, _⟩
    · exact h
    · rw [hden] at h
      exact absurd h (by simp)
  refine ⟨Acquire_denied_tokenCnt hden, Acquire_maxParallel tt key ttl now₀ now seed, ?_⟩
  rw [hA]
  rcases checkAtMaxPending_cases tt key now₀ seed with
    ⟨hcap, hc⟩ | ⟨_, _, hc⟩ | ⟨_, _, skey, st, hsk, hl, hx, hc⟩ | ⟨_, _, hc⟩
  · rw [hc]
    exact ⟨rfl, fun h => absurd h (by simp), fun h => absurd hcap h.1, Or.inl rfl⟩
  · exfalso
    have := Acquire_of_check_false hc ttl now
    simp only [AList.lookup_erase, Option.isNone_none, Bool.true_or, if_true] at this
    rw [this] at hden
    exact absurd hden (by simp)
  · rw [hc]
    refine ⟨AList.lookup_erase_ne (fun e => hsk e.symm), fun h => absurd h (by simp),
      fun h => absurd hx (h.2 skey st hl), Or.inr ⟨skey, st, hsk, hl, hx, rfl⟩⟩
  · rw [hc]
    exact ⟨rfl, fun _ => rfl, fun _ => rfl, Or.inl rfl⟩

/-- C15 at capacity 2: `a` has expired and `b` is live at clock 50; `Acquire("b")` evicts
`a` in the capacity check and is then denied on the live record of `b`. -/
theorem denied_acquire_effect_witness :
    (Acquire (run (NewThrottle 2) [Op.acquire "a" 5 0 0 0, Op.acquire "b" 100 1 1 0])
      "b" 5 50 50 0).2 = none ∧
    (Acquire (run (NewThrottle 2) [Op.acquire "a" 5 0 0 0, Op.acquire "b" 100 1 1 0])
      "b" 5 50 50 0).1.tokenMap.lookup "a" = none ∧
    (Acquire (run (NewThrottle 2) [Op.acquire "a" 5 0 0 0, Op.acquire "b" 100 1 1 0])
      "b" 5 50 50 0).1.tokenCnt
      = (run (NewThrottle 2)
          [Op.acquire "a" 5 0 0 0, Op.acquire "b" 100 1 1 0]).tokenCnt :=
  ⟨by decide, by decide,
   (denied_acquire_effect
    (run (NewThrottle 2) [Op.acquire "a" 5 0 0 0, Op.acquire "b" 100 1 1 0])
    "b" 5 50 50 0 (by decide)).1⟩

/-! ### The order of the scan -/

theorem len_insert_eq (m : TokenMap) (k : String) (v : tstate) :
    len (m.insert k v) = if (m.lookup k).isSome then len m else len m + 1 := by
  by_cases h : k ∈ m
  · rw [len_insert_of_mem m k v h, if_pos (AList.lookup_isSome.mpr h)]
  · rw [len_insert_of_not_mem m k v h, if_neg (fun hs => h (AList.lookup_isSome.mp hs))]

/-- Two scan orders give `checkAtMaxPending` the same result, the same counter, the same
record for the requested key and the same table size. -/
theorem checkAtMaxPending_seed (tt : Throttle) (key : String) (now : Int)
    (seed₁ seed₂ : Nat) :
    (checkAtMaxPending tt key now seed₁).2 = (checkAtMaxPending tt key now seed₂).2 ∧
    (checkAtMaxPending tt key now seed₁).1.tokenCnt
      = (checkAtMaxPending tt key now seed₂).1.tokenCnt ∧
    (checkAtMaxPending tt key now seed₁).1.maxParallel
      = (checkAtMaxPending tt key now seed₂).1.maxParallel ∧
    (checkAtMaxPending tt key now seed₁).1.tokenMap.lookup key
      = (checkAtMaxPending tt key now seed₂).1.tokenMap.lookup key ∧
    len (checkAtMaxPending tt key now seed₁).1.tokenMap
      = len (checkAtMaxPending tt key now seed₂).1.tokenMap := by
  rcases checkAtMaxPending_cases tt key now seed₁ with
    ⟨hcap₁, hc₁⟩ | ⟨hcap₁, ⟨st₁, hl₁, hx₁⟩, hc₁⟩ |
    ⟨hcap₁, hne₁, skey₁, st₁, hsk₁, hl₁, hx₁, hc₁⟩ | ⟨hcap₁, hnone₁, hc₁⟩
  · rcases checkAtMaxPending_cases tt key now seed₂ with
      ⟨_, hc₂⟩ | ⟨hcap₂, _, _⟩ | ⟨hcap₂, _, _⟩ | ⟨hcap₂, _, _⟩
    · rw [hc₁, hc₂]
      exact ⟨rfl, rfl, rfl, rfl, rfl⟩
    · exact absurd hcap₁ hcap₂
    · exact absurd hcap₁ hcap₂
    · exact absurd hcap₁ hcap₂
  · rcases checkAtMaxPending_cases tt key now seed₂ with
      ⟨hcap₂, _⟩ | ⟨_, _, hc₂⟩ | ⟨_, hne₂, _⟩ | ⟨_, hnone₂, _⟩
    · exact absurd hcap₂ hcap₁
    · rw [hc₁, hc₂]
      exact ⟨rfl, rfl, rfl, rfl, rfl⟩
    · simp [hl₁, expiredAt, hx₁] at hne₂
    · exact absurd hx₁ (hnone₂ key st₁ hl₁)
  · rcases checkAtMaxPending_cases tt key now seed₂ with
      ⟨hcap₂, _⟩ | ⟨_, ⟨st₂, hl₂, hx₂⟩, _⟩ |
      ⟨_, _, skey₂, st₂, hsk₂, hl₂, _, hc₂⟩ | ⟨_, hnone₂, _⟩
    · exact absurd hcap₂ hcap₁
    · simp [hl₂, expiredAt, hx₂] at hne₁
    · rw [hc₁, hc₂]
      refine ⟨rfl, rfl, rfl, ?_, ?_⟩
      · simp only [AList.lookup_erase_ne (fun e => hsk₁ e.symm),
          AList.lookup_erase_ne (fun e => hsk₂ e.symm)]
      · have h₁ := len_erase_of_mem tt.tokenMap skey₁ (mem_of_lookup hl₁)
        have h₂ := len_erase_of_mem tt.tokenMap skey₂ (mem_of_lookup hl₂)
        simp only
        omega
    · exact absurd hx₁ (hnone₂ skey₁ st₁ hl₁)
  · rcases checkAtMaxPending_cases tt key now seed₂ with
      ⟨hcap₂, _⟩ | ⟨_, ⟨st₂, hl₂, hx₂⟩, _⟩ | ⟨_, _, skey₂, st₂, _, hl₂, hx₂, _⟩ | ⟨_, _, hc₂⟩
    · exact absurd hcap₂ hcap₁
    · exact absurd hx₂ (hnone₁ key st₂ hl₂)
    · exact absurd hx₂ (hnone₁ skey₂ st₂ hl₂)
    · rw [hc₁, hc₂]
      exact ⟨rfl, rfl, rfl, rfl, rfl⟩

/-- C16: for every state and every call `Acquire(key, ttl)`, any two orders of the
eviction scan (`seed₁`, `seed₂`) give the same return value (nil, or a token with the
same id and key), the same `tokenCnt` and `maxParallel`, the same resulting record for
the requested key and the same resulting table size. -/
theorem scan_order_independent (tt : Throttle) (key : String) (ttl now₀ now : Int)
    (seed₁ seed₂ : Nat) :
    (Acquire tt key ttl now₀ now seed₁).2 = (Acquire tt key ttl now₀ now seed₂).2 ∧
    (Acquire tt key ttl now₀ now seed₁).1.tokenCnt
      = (Acquire tt key ttl now₀ now seed₂).1.tokenCnt ∧
    (Acquire tt key ttl now₀ now seed₁).1.maxParallel
      = (Acquire tt key ttl now₀ now seed₂).1.maxParallel ∧
    (Acquire tt key ttl now₀ now seed₁).1.tokenMap.lookup key
      = (Acquire tt key ttl now₀ now seed₂).1.tokenMap.lookup key ∧
    len (Acquire tt key ttl now₀ now seed₁).1.tokenMap
      = len (Acquire tt key ttl now₀ now seed₂).1.tokenMap := by
  obtain ⟨hb, hcnt, hmax, hkey, hlen⟩ := checkAtMaxPending_seed tt key now₀ seed₁ seed₂
  cases hb₁ : (checkAtMaxPending tt key now₀ seed₁).2 with
  | true =>
    have hb₂ : (checkAtMaxPending tt key now₀ seed₂).2 = true := by rw [← hb, hb₁]
    rw [Acquire_of_check_true (Prod.ext rfl hb₁) ttl now,
      Acquire_of_check_true (Prod.ext rfl hb₂) ttl now]
    exact ⟨rfl, hcnt, hmax, hkey, hlen⟩
  | false =>
    have hb₂ : (checkAtMaxPending tt key now₀ seed₂).2 = false := by rw [← hb, hb₁]
    rw [Acquire_of_check_false (Prod.ext rfl hb₁) ttl now,
      Acquire_of_check_false (Prod.ext rfl hb₂) ttl now]
    rw [← hkey, ← hcnt]
    split
    · refine ⟨rfl, rfl, hmax, ?_, ?_⟩
      · simp only [AList.lookup_insert]
      · simp only [len_insert_eq, ← hkey, hlen]
    · exact ⟨rfl, hcnt, hmax, hkey, hlen⟩

/-- The scan order does decide which record is evicted: at capacity 2 with the records of
`a` and `b` both expired, `Acquire("c")` evicts `b` under one order and `a` under the
other. -/
theorem scan_order_picks_victim :
    (Acquire (run (NewThrottle 2) [Op.acquire "a" 5 0 0 0, Op.acquire "b" 5 1 1 0])
      "c" 5 50 50 0).1.tokenMap.lookup "a" ≠ none ∧
    (Acquire (run (NewThrottle 2) [Op.acquire "a" 5 0 0 0, Op.acquire "b" 5 1 1 0])
      "c" 5 50 50 0).1.tokenMap.lookup "b" = none ∧
    (Acquire (run (NewThrottle 2) [Op.acquire "a" 5 0 0 0, Op.acquire "b" 5 1 1 0])
      "c" 5 50 50 1).1.tokenMap.lookup "a" = none ∧
    (Acquire (run (NewThrottle 2) [Op.acquire "a" 5 0 0 0, Op.acquire "b" 5 1 1 0])
      "c" 5 50 50 1).1.tokenMap.lookup "b" ≠ none := by
  decide

/-! ### Expiry reclaim across calls on other keys -/

/-- Calls on other keys do not create or change the record of `k`: a record found for `k`
after them was there before. -/
theorem run_other_keys_lookup {k : String} {st : tstate} (ops : List Op) :
    ∀ tt : Throttle, (∀ op ∈ ops, op.key ≠ k) →
      (run tt ops).tokenMap.lookup k = some st → tt.tokenMap.lookup k = some st := by
  induction ops with
  | nil => intro tt _ h; exact h
  | cons op ops ih =>
    intro tt hother h
    have hrest : ∀ o ∈ ops, o.key ≠ k := fun o ho => hother o (List.mem_cons_of_mem _ ho)
    have hop : op.key ≠ k := hother op (List.mem_cons_self _ _)
    have hstep := ih (step tt op) hrest h
    cases op with
    | acquire key ttl now₀ now seed =>
      rcases Acquire_lookup_some hstep with h' | ⟨hk, _, _⟩
      · exact h'
      · exact absurd hk.symm hop
    | release id key => exact release_lookup_some hstep

/-- C14, with the capacity condition it needs: if `Acquire(k, ttl)` succeeds at clock value
`t` and afterwards only calls on keys other than `k` are made (at any clock values), then
an `Acquire(k, ttl₂)` whose clock readings `c₀` (in `checkAtMaxPending`) and `c` (in
`Acquire`) are both after `t + ttl` succeeds if and only if `maxParallel = 0` or
`len(tokenMap) < maxParallel` or some record of the table has `expire < c₀`; it succeeds
in particular whenever the record of `k` is still in the table; and when it succeeds its
id is the first id plus the number of tokens granted since, modulo `2 ^ 64`, which is
strictly greater than the first id when that sum is below `2 ^ 64`. -/
theorem expiry_reclaim_other_keys (tt : Throttle) (k : String) (ttl t₀ t : Int) (seed : Nat)
    (tok₁ : Token) (hgrant : (Acquire tt k ttl t₀ t seed).2 = some tok₁)
    (ops : List Op) (hother : ∀ op ∈ ops, op.key ≠ k)
    (ttl₂ c₀ c : Int) (seed' : Nat) (h₀ : t + ttl < c₀) (h : t + ttl < c) :
    ((Acquire (run (Acquire tt k ttl t₀ t seed).1 ops) k ttl₂ c₀ c seed').2.isSome = true ↔
      ((run (Acquire tt k ttl t₀ t seed).1 ops).maxParallel = 0 ∨
       (len (run (Acquire tt k ttl t₀ t seed).1 ops).tokenMap : Int)
          < (run (Acquire tt k ttl t₀ t seed).1 ops).maxParallel ∨
       ∃ k' st, (run (Acquire tt k ttl t₀ t seed).1 ops).tokenMap.lookup k' = some st ∧
          st.expire < c₀)) ∧
    ((run (Acquire tt k ttl t₀ t seed).1 ops).tokenMap.lookup k ≠ none →
      (Acquire (run (Acquire tt k ttl t₀ t seed).1 ops) k ttl₂ c₀ c seed').2.isSome
        = true) ∧
    ∀ tok₂ : Token,
      (Acquire (run (Acquire tt k ttl t₀ t seed).1 ops) k ttl₂ c₀ c seed').2 = some tok₂ →
      tok₂.id = (tok₁.id + (grants (Acquire tt k ttl t₀ t seed).1 ops).length + 1) % 2 ^ 64 ∧
      (tok₁.id + (grants (Acquire tt k ttl t₀ t seed).1 ops).length + 1 < 2 ^ 64 →
        tok₁.id < tok₂.id) := by
  obtain ⟨_, _, hcnt₁, hrec⟩ := Acquire_granted hgrant
  have hk : ∀ st, (run (Acquire tt k ttl t₀ t seed).1 ops).tokenMap.lookup k = some st →
      st.expire < c₀ ∧ st.expire < c := by
    intro st hst
    have := run_other_keys_lookup ops _ hother hst
    rw [hrec] at this
    simp only [Option.some.injEq] at this
    subst this
    exact ⟨h₀, h⟩
  have hfirst : (run (Acquire tt k ttl t₀ t seed).1 ops).tokenMap.lookup k = none ∨
      ∃ st, (run (Acquire tt k ttl t₀ t seed).1 ops).tokenMap.lookup k = some st ∧
        st.expire < c := by
    cases hl : (run (Acquire tt k ttl t₀ t seed).1 ops).tokenMap.lookup k with
    | none => exact Or.inl rfl
    | some st => exact Or.inr ⟨st, rfl, (hk st hl).2⟩
  have hiff := Acquire_isSome_iff (run (Acquire tt k ttl t₀ t seed).1 ops) k ttl₂ c₀ c seed'
    (fun st hst _ => (hk st hst).2)
  refine ⟨?_, ?_, ?_⟩
  · rw [hiff]
    exact ⟨fun hh => hh.2, fun hh => ⟨hfirst, hh⟩⟩
  · intro hne
    rw [hiff]
    refine ⟨hfirst, Or.inr (Or.inr ?_)⟩
    cases hl : (run (Acquire tt k ttl t₀ t seed).1 ops).tokenMap.lookup k with
    | none => exact absurd hl hne
    | some st => exact ⟨k, st, hl, (hk st hl).1⟩
  · intro tok₂ h₂
    have hid₂ := (Acquire_granted h₂).2.1
    have hrun := run_tokenCnt ops (Acquire tt k ttl t₀ t seed).1
    have h64 : (2 : Nat) ^ 64 = 18446744073709551616 := by norm_num
    rw [hcnt₁, uint64Size_eq] at hrun
    rw [uint64Size_eq] at hid₂
    rw [h64]
    constructor
    · omega
    · intro hlt
      omega

/-- C14 below capacity: on `NewThrottle 2`, key `k` is granted for 1 tick at clock 0, key
`j` is granted at clock 5, and the `Acquire` of `k` with clock readings 6 and 8
succeeds. -/
theorem expiry_reclaim_other_keys_witness :
    (Acquire (NewThrottle 2) "k" 1 0 0 0).2 = some ⟨1, "k"⟩ ∧
    (Acquire (run (Acquire (NewThrottle 2) "k" 1 0 0 0).1 [Op.acquire "j" 100 5 5 0])
      "k" 1 6 8 0).2.isSome = true :=
  ⟨by decide,
   (expiry_reclaim_other_keys (NewThrottle 2) "k" 1 0 0 0 ⟨1, "k"⟩ (by decide)
    [Op.acquire "j" 100 5 5 0] (by decide) 1 6 8 0 (by decide) (by decide)).2.1
      (by decide)⟩

/-- C14 as stated fails at capacity 1: key `k` is granted for 1 tick at clock 0; at clock
5 an `Acquire` of another key `j` evicts the expired record of `k` and is granted for 100
ticks; the `Acquire` of `k` at clock 6, after its expiry at clock 1, is denied, the one
slot being held by the live record of `j`. -/
theorem expiry_reclaim_denied_after_eviction :
    (Acquire (NewThrottle 1) "k" 1 0 0 0).2 = some ⟨1, "k"⟩ ∧
    (∀ op ∈ [Op.acquire "j" 100 5 5 0], op.key ≠ "k") ∧
    List.Chain (fun a b : Int => a ≤ b) 0 (clocks [Op.acquire "j" 100 5 5 0] ++ [6, 6]) ∧
    (0 : Int) + 1 < 6 ∧
    (Acquire (run (Acquire (NewThrottle 1) "k" 1 0 0 0).1 [Op.acquire "j" 100 5 5 0])
      "k" 1 6 6 0).2 = none := by
  refine ⟨by decide, by decide, by simp [clocks], by decide, by decide⟩

end throttle
